import Mathlib

/-!
Shallow embedding of the SkyDNS service registry and DNS engine
(skynetservices/skydns1): the service record (msg.Service), the name tree
(registry node), the denial-of-existence index, the registry operations
(Add / Remove / RemoveUUID / Get / GetUUID / GetNSEC / Len) and the
SRV/ANY branch of Server.ServeDNS.

Modelling conventions:
* Wall-clock time is integer Unix seconds (an `Int` parameter `now`);
  `time.Time` fields become `Int`.
* Go machine integers become `Nat`/`Int` (no overflow is reachable in the
  quantities involved: TTLs, lengths, reference counts).
* Go maps become association lists; map iteration order (randomized in Go)
  is determinized to list order.
* Pointer aliasing between the id map `nodes` and the tree leaves (both
  hold the same *node, whose value field is mutated in place by reads) is
  modelled by a heap keyed by UUID: tree leaves store the UUID of their
  service, the heap stores the mutable service record itself.
-/

namespace SkyDNS

/-- Association-list lookup, modelling Go map read `m[k]`. -/
def alookup {α : Type} : List (String × α) → String → Option α
  | [], _ => none
  | (k, v) :: t, u => if k = u then some v else alookup t u

/-- Association-list update-or-append, modelling Go map write `m[k] = v`. -/
def aset {α : Type} : List (String × α) → String → α → List (String × α)
  | [], u, s => [(u, s)]
  | (k, v) :: t, u, s => if k = u then (u, s) :: t else (k, v) :: aset t u s

/-- Association-list removal, modelling Go `delete(m, k)`. -/
def adel {α : Type} : List (String × α) → String → List (String × α)
  | [], _ => []
  | (k, v) :: t, u => if k = u then t else (k, v) :: adel t u

/-- msg.Service (msg/service.go; the skydns1 variant additionally carries
NoExpire, used by GetExpired).  `Expires` is absolute Unix seconds. -/
structure Service where
  uuid : String
  name : String
  version : String
  environment : String
  region : String
  host : String
  port : Nat
  ttl : Nat
  expires : Int
  noExpire : Bool
  deriving Repr, DecidableEq

/-- Service.RemainingTTL: `d := s.Expires.Sub(time.Now()); ttl := uint32(d.Seconds());
if ttl < 1 { return 0 }; return ttl`.  With integer-second time the
truncation of `d.Seconds()` is exact; a non-positive difference is clamped
to 0 (the conversion of a negative float to uint32 is
implementation-dependent in Go; the guard `ttl < 1` realises the intended
clamp, which is the defined behaviour modelled here). -/
def Service.RemainingTTL (s : Service) (now : Int) : Nat :=
  if s.expires ≤ now then 0 else (s.expires - now).toNat

/-- Service.UpdateTTL: `s.TTL = s.RemainingTTL()` (mutates the record). -/
def Service.UpdateTTL (s : Service) (now : Int) : Service :=
  { s with ttl := s.RemainingTTL now }

/-- Heap of service-record cells keyed by UUID (the shared mutable
`node.value` storage reachable both from the id map and the tree). -/
abbrev Heap := List (String × Service)

/-- registry node: `leaves map[string]*node; depth, length int; value msg.Service`.
`vid` is the UUID of the stored service (`none` for the zero value held by
internal nodes); the record itself lives in the heap. -/
inductive Node : Type where
  | mk (leaves : List (String × Node)) (depth : Int) (length : Int) (vid : Option String) : Node
  deriving Repr

def Node.leaves : Node → List (String × Node)
  | .mk l _ _ _ => l

def Node.depth : Node → Int
  | .mk _ d _ _ => d

def Node.length : Node → Int
  | .mk _ _ n _ => n

def Node.vid : Node → Option String
  | .mk _ _ _ v => v

/-- newNode(): empty leaves map, zero depth and length, zero value. -/
def newNode : Node := .mk [] 0 0 none

/-- node.size(): `return n.length`. -/
def Node.size (n : Node) : Int := n.length

/-- node.add, on the reversed label sequence.  The Go code walks the slice
right to left (`k := tree[len(tree)-1]`, recursing on `tree[:len(tree)-1]`,
inserting when `len(tree) == 1`); on the reversed list this is exactly
head-first recursion with a singleton base case.  Returns (success, the
resulting tree); mutations performed before a failure are kept in the
returned tree, as in the in-place Go code.  The `[]` case is unreachable
from the registry (strings.Split never yields an empty slice). -/
def Node.addW : Node → List String → Service → Bool × Node
  | n, [], _ => (false, n)
  | n, [x], s =>
    match alookup n.leaves x with
    | some _ => (false, n)
    | none =>
      (true, .mk (aset n.leaves x (.mk [] (n.depth + 1) 0 (some s.uuid)))
        n.depth (n.length + 1) n.vid)
  | n, k :: rest, s =>
    let c := match alookup n.leaves k with
             | some c => c
             | none => .mk [] (n.depth + 1) 0 none
    let (ok, c2) := Node.addW c rest s
    if ok then
      (true, .mk (aset n.leaves k c2) n.depth (n.length + 1) n.vid)
    else
      (false, .mk (aset n.leaves k c2) n.depth n.length n.vid)

/-- node.add with the label sequence in source order (left to right:
id, host, region, version, name, environment); the walk is right to left. -/
def Node.add (n : Node) (tree : List String) (s : Service) : Bool × Node :=
  Node.addW n tree.reverse s

/-- node.remove, on the reversed label sequence (same right-to-left walk as
node.add).  At the last label the child is deleted and the counter
decremented; on the way back up counters are decremented and a child whose
size dropped to 0 is pruned.  Returns (success, resulting tree). -/
def Node.removeW : Node → List String → Bool × Node
  | n, [] => (false, n)
  | n, [x] =>
    match alookup n.leaves x with
    | none => (false, n)
    | some _ => (true, .mk (adel n.leaves x) n.depth (n.length - 1) n.vid)
  | n, k :: rest =>
    match alookup n.leaves k with
    | none => (false, n)
    | some c =>
      let (ok, c2) := Node.removeW c rest
      if ok then
        let ls := if c2.size = 0 then adel (aset n.leaves k c2) k else aset n.leaves k c2
        (true, .mk ls n.depth (n.length - 1) n.vid)
      else
        (false, .mk (aset n.leaves k c2) n.depth n.length n.vid)

/-- node.remove with the label sequence in source order. -/
def Node.remove (n : Node) (tree : List String) : Bool × Node :=
  Node.removeW n tree.reverse

/-- One bottom-level enumeration step of node.get: update the child's
value cell (`s.value.UpdateTTL()`) and keep the record when the updated
TTL exceeds 1.  A child with no stored value (internal node) carries the
zero Service, whose updated TTL is 0 and is never kept. -/
def touchChild (c : Node) (h : Heap) (now : Int) : Option Service × Heap :=
  match c.vid with
  | none => (none, h)
  | some u =>
    match alookup h u with
    | none => (none, h)
    | some s =>
      let s2 := s.UpdateTTL now
      (if 1 < s2.ttl then some s2 else none, aset h u s2)

/-- Bottom-level wildcard loop of node.get: `for _, s := range n.leaves`,
updating every child's TTL and collecting those whose TTL exceeds 1. -/
def Node.getBottom : List (String × Node) → Heap → Int → List Service × Heap
  | [], h, _ => ([], h)
  | (_, c) :: cs, h, now =>
    let (r, h1) := touchChild c h now
    let (ss, h2) := Node.getBottom cs h1 now
    match r with
    | some s => (s :: ss, h2)
    | none => (ss, h2)

/-- The wildcard loop of node.get above the bottom level
(`for _, l := range n.leaves`), parameterized by the query run on each
child: concatenates the successful results and records whether any branch
succeeded. -/
def getLoop (f : Node → Heap → Option (List Service) × Heap) :
    List (String × Node) → Heap → List Service × Bool × Heap
  | [], h => ([], false, h)
  | (_, c) :: cs, h =>
    let (r, h1) := f c h
    let (ss, ok, h2) := getLoop f cs h1
    match r with
    | some s => (s ++ ss, true, h2)
    | none => (ss, ok, h2)

/-- node.get, on the reversed label sequence (same right-to-left walk).
Returns (`some services` on success / `none` for ErrNotExists, updated
heap).  In-place TTL mutations are kept in the heap even for branches
whose result is discarded, as in the Go code. -/
def Node.getW : Node → List String → Heap → Int → Option (List Service) × Heap
  | _, [], h, _ => (none, h)
  | n, [x], h, now =>
    if x = "*" then
      if n.leaves.isEmpty then (none, h)
      else
        let (ss, h2) := Node.getBottom n.leaves h now
        (some ss, h2)
    else
      match alookup n.leaves x with
      | none => (none, h)
      | some c =>
        let (r, h2) := touchChild c h now
        match r with
        | some s => (some [s], h2)
        | none => (some [], h2)
  | n, k :: k2 :: rest, h, now =>
    if k = "*" then
      if n.leaves.isEmpty then (none, h)
      else
        let (ss, ok, h2) :=
          getLoop (fun c hh => Node.getW c (k2 :: rest) hh now) n.leaves h
        if ok then (some ss, h2) else (none, h2)
    else
      match alookup n.leaves k with
      | none => (none, h)
      | some c => Node.getW c (k2 :: rest) h now

/-- node.get with the label sequence in source order. -/
def Node.get (n : Node) (tree : List String) (h : Heap) (now : Int) :
    Option (List Service) × Heap :=
  Node.getW n tree.reverse h now

/-- denialReference: a domain name with a reference count. -/
structure denialReference where
  name : String
  reference : Int
  deriving Repr, DecidableEq

/-- Go lexicographic string order (byte-wise; the characters involved are
ASCII, where character and byte order agree): the first differing
character decides, a proper prefix is smaller. -/
def charsLt : List Char → List Char → Bool
  | [], [] => false
  | [], _ :: _ => true
  | _ :: _, [] => false
  | a :: as, b :: bs =>
    if a.toNat = b.toNat then charsLt as bs else decide (a.toNat < b.toNat)

/-- `a < b` for Go strings. -/
def strLt (a b : String) : Bool := charsLt a.data b.data

/-- `sort.Search(len(nsec), func(i int) bool { return nsec[i].name >= key })`:
on a sorted slice the binary search returns the first index whose name is
not below the key, i.e. the number of leading entries whose name is below
the key. -/
def lowerBound (nsec : List denialReference) (key : String) : Nat :=
  (nsec.takeWhile (fun d => strLt d.name key)).length

/-- DefaultRegistry.addNSEC: binary-search for the insertion point; if the
name is present, increment its reference count, else insert a fresh entry
with count 1 at the insertion point (the Go append/copy shift). -/
def addNSEC (nsec : List denialReference) (key : String) : List denialReference :=
  let i := lowerBound nsec key
  if i < nsec.length ∧ (nsec.getD i ⟨"", 0⟩).name = key then
    nsec.set i ⟨key, (nsec.getD i ⟨"", 0⟩).reference + 1⟩
  else
    nsec.insertIdx i ⟨key, 1⟩

/-- DefaultRegistry.removeNSEC: binary-search; on a hit decrement the
reference count and drop the entry when the count reaches zero (the Go
copy shift plus truncation). -/
def removeNSEC (nsec : List denialReference) (key : String) : List denialReference :=
  let i := lowerBound nsec key
  if i < nsec.length ∧ (nsec.getD i ⟨"", 0⟩).name = key then
    let d := nsec.getD i ⟨"", 0⟩
    if d.reference - 1 = 0 then nsec.eraseIdx i
    else nsec.set i ⟨d.name, d.reference - 1⟩
  else nsec

/-- DefaultRegistry.GetNSEC on the denial index.  `none` marks the one
input class on which the Go code panics: a non-empty index whose every
name is below the key, where `sort.Search` returns `len(r.nsec)` and the
final `return r.nsec[i-1].name + ".", r.nsec[i].name + "."` indexes out of
range. -/
def getNSEC (nsec : List denialReference) (key : String) : Option (String × String) :=
  if nsec.length = 0 then some ("", "")
  else
    let i := lowerBound nsec key
    if i < nsec.length ∧ (nsec.getD i ⟨"", 0⟩).name = key then
      if i + 1 = nsec.length then some ((nsec.getD i ⟨"", 0⟩).name ++ ".", "")
      else some ((nsec.getD i ⟨"", 0⟩).name, (nsec.getD (i + 1) ⟨"", 0⟩).name ++ ".")
    else if i = 0 then some ("", (nsec.getD i ⟨"", 0⟩).name ++ ".")
    else if i < nsec.length then
      some ((nsec.getD (i - 1) ⟨"", 0⟩).name ++ ".", (nsec.getD i ⟨"", 0⟩).name ++ ".")
    else none

/-- `strings.Replace(x, ".", "-", -1)`. -/
def dotToDash (x : String) : String :=
  ⟨x.data.map (fun c => if c = '.' then '-' else c)⟩

/-- strings.ToLower (character-wise; domain labels are ASCII). -/
def strToLower (x : String) : String :=
  ⟨x.data.map Char.toLower⟩

/-- `strings.Split(s, ".")`: dot-separated fields; the empty string yields
one empty field. -/
def splitDotAux : List Char → List Char → List String
  | [], acc => [⟨acc.reverse⟩]
  | c :: t, acc => if c = '.' then ⟨acc.reverse⟩ :: splitDotAux t [] else splitDotAux t (c :: acc)

def splitDot (s : String) : List String :=
  splitDotAux s.data []

/-- Whether the character sequence of `suf` is a suffix of `s`
(strings.HasSuffix; the labels involved are ASCII, where character and
byte suffixes agree). -/
def hasSuffix (s suf : String) : Bool :=
  suf.data.isSuffixOf s.data

/-- Drop the last `n` characters. -/
def dropRightChars (s : String) (n : Nat) : String :=
  ⟨s.data.take (s.data.length - n)⟩

/-- strings.Join with separator ".". -/
def joinDot : List String → String
  | [] => ""
  | [x] => x
  | x :: y :: t => x ++ "." ++ joinDot (y :: t)

/-- getRegistryKey: the lower-cased dot-joined
`uuid.host.region.version.name.environment` with dots in host and version
replaced by dashes. -/
def getRegistryKey (s : Service) : String :=
  strToLower (s.uuid ++ "." ++ dotToDash s.host ++ "." ++ s.region ++ "." ++
    dotToDash s.version ++ "." ++ s.name ++ "." ++ s.environment)

/-- dns.SplitDomainName for plain (unescaped) names: drop a trailing dot,
then split on dots; the empty name has no labels. -/
def splitDomainName (s : String) : List String :=
  let s := if hasSuffix s "." then dropRightChars s 1 else s
  if s = "" then [] else splitDot s

/-- DefaultRegistry: the name tree, the id map (here the heap of service
cells keyed by UUID: the Go map holds pointers to the very nodes whose
value cells the heap models), the sorted denial index, and the dnssec
flag. -/
structure DefaultRegistry where
  tree : Node
  nodes : Heap
  nsec : List denialReference
  dnssec : Bool

/-- Registry errors: ErrExists / ErrNotExists. -/
inductive RegErr where
  | exists0
  | notExists
  deriving Repr, DecidableEq

/-- New(): empty tree, empty id map, empty denial index. -/
def New : DefaultRegistry := ⟨newNode, [], [], false⟩

/-- The four owner names added to (and removed from) the denial index for
a service, in source order: region.version.name.environment first,
environment last. -/
def addOwnerNSECs (nsec : List denialReference) (s : Service) : List denialReference :=
  let n1 := addNSEC nsec (s.region ++ "." ++ s.version ++ "." ++ s.name ++ "." ++ s.environment)
  let n2 := addNSEC n1 (s.version ++ "." ++ s.name ++ "." ++ s.environment)
  let n3 := addNSEC n2 (s.name ++ "." ++ s.environment)
  addNSEC n3 s.environment

def removeOwnerNSECs (nsec : List denialReference) (s : Service) : List denialReference :=
  let n1 := removeNSEC nsec (s.region ++ "." ++ s.version ++ "." ++ s.name ++ "." ++ s.environment)
  let n2 := removeNSEC n1 (s.version ++ "." ++ s.name ++ "." ++ s.environment)
  let n3 := removeNSEC n2 (s.name ++ "." ++ s.environment)
  removeNSEC n3 s.environment

/-- DefaultRegistry.Add: fail with ErrExists when the UUID is mapped;
otherwise tree.add on the split registry key; on success record the new
node in the id map and, when dnssec is on, add the four owner names to
the denial index.  The tree resulting from a failed tree.add is kept, as
in the in-place Go code. -/
def DefaultRegistry.Add (r : DefaultRegistry) (s : Service) :
    Option RegErr × DefaultRegistry :=
  if (alookup r.nodes s.uuid).isSome then (some .exists0, r)
  else
    let k := getRegistryKey s
    let (ok, t2) := r.tree.add (splitDot k) s
    if ok then
      (none, { r with
        tree := t2
        nodes := aset r.nodes s.uuid s
        nsec := if r.dnssec then addOwnerNSECs r.nsec s else r.nsec })
    else
      (some .exists0, { r with tree := t2 })

/-- DefaultRegistry.removeService (the registry lock is held): delete the
id-map entry, invoke the callbacks (a pure no-op here), remove the four
owner names when dnssec is on, then tree.remove on the split key; its
error is returned. -/
def DefaultRegistry.removeService (r : DefaultRegistry) (s : Service) :
    Option RegErr × DefaultRegistry :=
  let nodes2 := adel r.nodes s.uuid
  let nsec2 := if r.dnssec then removeOwnerNSECs r.nsec s else r.nsec
  let k := getRegistryKey s
  let (ok, t2) := r.tree.remove (splitDot k)
  (if ok then none else some .notExists,
   { r with tree := t2, nodes := nodes2, nsec := nsec2 })

/-- DefaultRegistry.Remove: look the UUID up in the id map and remove the
stored record; ErrNotExists when absent. -/
def DefaultRegistry.Remove (r : DefaultRegistry) (s : Service) :
    Option RegErr × DefaultRegistry :=
  match alookup r.nodes s.uuid with
  | some v => r.removeService v
  | none => (some .notExists, r)

/-- DefaultRegistry.RemoveUUID. -/
def DefaultRegistry.RemoveUUID (r : DefaultRegistry) (u : String) :
    Option RegErr × DefaultRegistry :=
  match alookup r.nodes u with
  | some v => r.removeService v
  | none => (some .notExists, r)

/-- DefaultRegistry.UpdateTTL: overwrite the TTL and expiration of the
stored record; ErrNotExists when the UUID is unknown. -/
def DefaultRegistry.UpdateTTL (r : DefaultRegistry) (u : String) (ttl : Nat)
    (expires : Int) : Option RegErr × DefaultRegistry :=
  match alookup r.nodes u with
  | some v =>
    (none, { r with nodes := aset r.nodes u { v with ttl := ttl, expires := expires } })
  | none => (some .notExists, r)

/-- DefaultRegistry.GetUUID: when the UUID is mapped, first overwrite the
stored record's TTL with its remaining TTL (an in-place mutation kept even
when the lookup then fails), then return the record if that TTL is at
least 1; ErrNotExists otherwise. -/
def DefaultRegistry.GetUUID (r : DefaultRegistry) (u : String) (now : Int) :
    Option Service × DefaultRegistry :=
  match alookup r.nodes u with
  | some v =>
    let v2 := { v with ttl := v.RemainingTTL now }
    let r2 := { r with nodes := aset r.nodes u v2 }
    if 1 ≤ v2.ttl then (some v2, r2) else (none, r2)
  | none => (none, r)

/-- The label preprocessing of DefaultRegistry.Get: lowercase, strip a
trailing dot, split into labels, left-pad with `*` to six labels. -/
def getQueryLabels (domain : String) : List String :=
  let d := strToLower domain
  let d := if hasSuffix d "." then dropRightChars d 1 else d
  let labels := splitDomainName d
  if labels.length < 6 then
    List.replicate (6 - labels.length) "*" ++ labels else labels

/-- DefaultRegistry.Get: preprocess the domain into six labels and query
the tree. -/
def DefaultRegistry.Get (r : DefaultRegistry) (domain : String) (now : Int) :
    Option (List Service) × DefaultRegistry :=
  let (res, h2) := r.tree.get (getQueryLabels domain) r.nodes now
  (res, { r with nodes := h2 })

/-- DefaultRegistry.Len: the root's subtree count. -/
def DefaultRegistry.Len (r : DefaultRegistry) : Int := r.tree.size

/-- DefaultRegistry.GetNSEC. -/
def DefaultRegistry.GetNSEC (r : DefaultRegistry) (key : String) :
    Option (String × String) :=
  getNSEC r.nsec key

/-- DefaultRegistry.DNSSEC: set the flag, return the prior value. -/
def DefaultRegistry.DNSSEC (r : DefaultRegistry) (b : Bool) :
    Bool × DefaultRegistry :=
  (r.dnssec, { r with dnssec := b })

/-- A registry-API operation (the mutations and reads the claims range
over); reads carry their own wall-clock instant. -/
inductive RegOp where
  | add (s : Service)
  | remove (s : Service)
  | removeUUID (u : String)
  | updateTTL (u : String) (ttl : Nat) (expires : Int)
  | getUUID (u : String) (now : Int)
  | get (domain : String) (now : Int)

/-- Apply one operation, returning the error outcome and the new state. -/
def DefaultRegistry.step (r : DefaultRegistry) : RegOp → Option RegErr × DefaultRegistry
  | .add s => r.Add s
  | .remove s => r.Remove s
  | .removeUUID u => r.RemoveUUID u
  | .updateTTL u ttl e => r.UpdateTTL u ttl e
  | .getUUID u now =>
    let (res, r2) := r.GetUUID u now
    (if res.isSome then none else some .notExists, r2)
  | .get d now =>
    let (res, r2) := r.Get d now
    (if res.isSome then none else some .notExists, r2)

/-- Run a sequence of registry operations. -/
def run (r : DefaultRegistry) : List RegOp → DefaultRegistry
  | [] => r
  | op :: ops => run (r.step op).2 ops

/-- The contribution of one operation to the number of live services:
+1 for an Add that returned no error, -1 for a Remove/RemoveUUID that
returned no error, 0 otherwise. -/
def stepDelta : RegOp → Option RegErr → Int
  | .add _, none => 1
  | .remove _, none => -1
  | .removeUUID _, none => -1
  | _, _ => 0

/-- The net number of services successfully added and not yet removed
along a run. -/
def netCount (r : DefaultRegistry) : List RegOp → Int
  | [] => 0
  | op :: ops => stepDelta op (r.step op).1 + netCount (r.step op).2 ops

/-- DNS response codes used by the modelled handler. -/
inductive Rcode where
  | noError
  | servFail
  deriving Repr, DecidableEq

/-- An SRV answer record as assembled by ServeDNS. -/
structure SRVRecord where
  rname : String
  rttl : Nat
  priority : Nat
  weight : Nat
  port : Nat
  target : String
  deriving Repr, DecidableEq

/-- The reply message: answer section plus response code. -/
structure DNSReply where
  answer : List SRVRecord
  rcode : Rcode
  deriving Repr, DecidableEq

/-- One SRV answer: name and TTL from the question name and service TTL,
target `service.Host + "."`. -/
def mkSRV (qname : String) (prio w : Nat) (s : Service) : SRVRecord :=
  ⟨qname, s.ttl, prio, w, s.port, s.host ++ "."⟩

/-- strings.TrimSuffix. -/
def trimSuffix (s suf : String) : String :=
  if hasSuffix s suf then dropRightChars s suf.data.length else s

/-- `pos := len(labels) - 4`: the index of the region label in the query. -/
abbrev fallbackPos (labels : List String) : Nat := labels.length - 4

/-- The guard of the cross-region fallback:
`len(labels) >= 4 && labels[pos] != "any" && labels[pos] != "all"`. -/
abbrev fallbackApplies (labels : List String) : Prop :=
  4 ≤ labels.length ∧ labels.getD (fallbackPos labels) "" ≠ "any" ∧
    labels.getD (fallbackPos labels) "" ≠ "all"

/-- Server.ServeDNS, SRV/ANY branch (the snapshot that strips the zone
suffix and answers SERVFAIL on registry errors): primary lookup with
priority 10 and weight `100 / |S|`; then, when the key has at least four
labels whose fourth-from-right label is a concrete region, a second lookup
with that label replaced by `any`; if `|S2| <= |S|` nothing more is
emitted, otherwise every service of the second set whose region differs
from the requested one is emitted with priority 20 and weight
`100 / (|S2| - |S|)`.  Both Go divisions are integer divisions. -/
def ServeDNS_SRV (r : DefaultRegistry) (domain : String) (qname : String)
    (now : Int) : DNSReply × DefaultRegistry :=
  let key := trimSuffix qname (domain ++ ".")
  let (res, r1) := r.Get key now
  match res with
  | none => (⟨[], .servFail⟩, r1)
  | some services =>
    let w := if 0 < services.length then 100 / services.length else 0
    let answer1 := services.map (mkSRV qname 10 w)
    let labels := splitDomainName key
    if fallbackApplies labels then
      let region := labels.getD (fallbackPos labels) ""
      let labels2 := labels.set (fallbackPos labels) "any"
      let (res2, r2) := r1.Get (joinDot labels2) now
      match res2 with
      | none => (⟨answer1, .servFail⟩, r2)
      | some additional =>
        if additional.length ≤ services.length then (⟨answer1, .noError⟩, r2)
        else
          let w2 := 100 / (additional.length - services.length)
          let extra := (additional.filter
            (fun serv => strToLower serv.region ≠ region)).map (mkSRV qname 20 w2)
          (⟨answer1 ++ extra, .noError⟩, r2)
    else (⟨answer1, .noError⟩, r1)


/-! ### Basic lemmas about the association-list operations -/

theorem alookup_aset {α : Type} (l : List (String × α)) (u : String) (v : α) :
    ∀ w, alookup (aset l u v) w = if u = w then some v else alookup l w := by
  induction l with
  | nil => intro w; simp [aset, alookup]
  | cons p t ih =>
    intro w
    obtain ⟨k, x⟩ := p
    by_cases hk : k = u
    · subst hk
      simp [aset, alookup]
      by_cases hw : k = w
      · subst hw; simp
      · simp [hw]
    · simp [aset, hk, alookup]
      by_cases hw : k = w
      · subst hw
        have : ¬ u = k := fun h => hk h.symm
        simp [this]
      · simp [hw, ih]

theorem aset_self {α : Type} (l : List (String × α)) (u : String) (v : α)
    (h : alookup l u = some v) : aset l u v = l := by
  induction l with
  | nil => simp [alookup] at h
  | cons p t ih =>
    obtain ⟨k, x⟩ := p
    by_cases hk : k = u
    · subst hk
      simp [alookup] at h
      simp [aset, h]
    · simp [alookup, hk] at h
      simp [aset, hk, ih h]

/-- A node equals the reassembly of its fields. -/
theorem Node.eta (n : Node) : Node.mk n.leaves n.depth n.length n.vid = n := by
  cases n; rfl

/-! ### Effect of node.add and node.remove on the subtree counter -/

/-- tree.add into a node with no children always succeeds (for a non-empty
label path): a failure requires an existing leaf at the full path. -/
theorem addW_fresh (t : List String) :
    ∀ (d len : Int) (v : Option String) (s : Service), t ≠ [] →
      (Node.addW (.mk [] d len v) t s).1 = true := by
  induction t with
  | nil => intro d len v s h; exact absurd rfl h
  | cons k rest ih =>
    intro d len v s _
    cases rest with
    | nil => simp [Node.addW, Node.leaves, alookup]
    | cons k2 rs =>
      simp only [Node.addW, Node.leaves, alookup]
      have := ih (d + 1) 0 none s (by simp)
      simp only [Node.depth]
      rcases hr : Node.addW (.mk [] (d + 1) 0 none) (k2 :: rs) s with ⟨ok, c2⟩
      rw [hr] at this
      simp at this
      subst this
      simp

/-- A successful tree.add increments the root counter by exactly one; a
failed tree.add leaves the tree unchanged. -/
theorem addW_spec (t : List String) :
    ∀ (n : Node) (s : Service),
      ((Node.addW n t s).1 = true → (Node.addW n t s).2.length = n.length + 1)
      ∧ ((Node.addW n t s).1 = false → (Node.addW n t s).2 = n) := by
  induction t with
  | nil => intro n s; simp [Node.addW]
  | cons k rest ih =>
    intro n s
    cases rest with
    | nil =>
      simp only [Node.addW]
      cases halk : alookup n.leaves k with
      | some c => simp
      | none => simp [Node.length]
    | cons k2 rs =>
      simp only [Node.addW]
      cases halk : alookup n.leaves k with
      | none =>
        have hfr := addW_fresh (k2 :: rs) (n.depth + 1) 0 none s (by simp)
        rcases hr : Node.addW (.mk [] (n.depth + 1) 0 none) (k2 :: rs) s with ⟨ok, c2⟩
        rw [hr] at hfr
        simp at hfr
        subst hfr
        simp [Node.length]
      | some c =>
        have ihc := ih c s
        rcases hr : Node.addW c (k2 :: rs) s with ⟨ok, c2⟩
        rw [hr] at ihc
        cases ok with
        | true => simp [Node.length]
        | false =>
          have hc2 : c2 = c := by simpa using ihc
          subst hc2
          simp [aset_self _ _ _ halk, Node.eta]

/-- A successful tree.remove decrements the root counter by exactly one; a
failed tree.remove leaves the tree unchanged. -/
theorem removeW_spec (t : List String) :
    ∀ (n : Node),
      ((Node.removeW n t).1 = true → (Node.removeW n t).2.length = n.length - 1)
      ∧ ((Node.removeW n t).1 = false → (Node.removeW n t).2 = n) := by
  induction t with
  | nil => intro n; simp [Node.removeW]
  | cons k rest ih =>
    intro n
    cases rest with
    | nil =>
      simp only [Node.removeW]
      cases halk : alookup n.leaves k with
      | none => simp
      | some c => simp [Node.length]
    | cons k2 rs =>
      simp only [Node.removeW]
      cases halk : alookup n.leaves k with
      | none => simp
      | some c =>
        have ihc := ih c
        dsimp only
        rcases hr : Node.removeW c (k2 :: rs) with ⟨ok, c2⟩
        rw [hr] at ihc
        cases ok with
        | true =>
          by_cases hz : c2.size = 0
          · simp [hz, Node.length]
          · simp [hz, Node.length]
        | false =>
          have hc2 : c2 = c := by simpa using ihc
          subst hc2
          simp [aset_self _ _ _ halk, Node.eta]

/-- Each registry-API operation changes the root subtree counter by
exactly its live-service contribution: +1 for a successful Add, -1 for a
successful Remove/RemoveUUID, 0 for failures and for reads/TTL updates. -/
theorem step_len (r : DefaultRegistry) (op : RegOp) :
    (r.step op).2.Len = r.Len + stepDelta op (r.step op).1 := by
  cases op with
  | add s =>
    simp only [DefaultRegistry.step, DefaultRegistry.Add]
    by_cases hm : (alookup r.nodes s.uuid).isSome
    · simp [hm, stepDelta]
    · simp only [hm, if_false, Bool.false_eq_true]
      have hsp := addW_spec ((splitDot (getRegistryKey s)).reverse) r.tree s
      rcases ha : Node.add r.tree (splitDot (getRegistryKey s)) s with ⟨ok, t2⟩
      rw [Node.add] at ha
      rw [ha] at hsp
      cases ok with
      | true =>
        have hlen := hsp.1 rfl
        simp only [] at hlen
        simp [stepDelta, DefaultRegistry.Len, Node.size]
        omega
      | false =>
        have hun := hsp.2 rfl
        simp only [] at hun
        simp [stepDelta, DefaultRegistry.Len, Node.size, hun]
  | remove s =>
    simp only [DefaultRegistry.step, DefaultRegistry.Remove]
    cases hm : alookup r.nodes s.uuid with
    | none => simp [stepDelta]
    | some v =>
      simp only [DefaultRegistry.removeService]
      have hsp := removeW_spec ((splitDot (getRegistryKey v)).reverse) r.tree
      rcases ha : Node.remove r.tree (splitDot (getRegistryKey v)) with ⟨ok, t2⟩
      rw [Node.remove] at ha
      rw [ha] at hsp
      cases ok with
      | true =>
        have hlen := hsp.1 rfl
        simp only [] at hlen
        simp [stepDelta, DefaultRegistry.Len, Node.size]
        omega
      | false =>
        have hun := hsp.2 rfl
        simp only [] at hun
        simp [stepDelta, DefaultRegistry.Len, Node.size, hun]
  | removeUUID u =>
    simp only [DefaultRegistry.step, DefaultRegistry.RemoveUUID]
    cases hm : alookup r.nodes u with
    | none => simp [stepDelta]
    | some v =>
      simp only [DefaultRegistry.removeService]
      have hsp := removeW_spec ((splitDot (getRegistryKey v)).reverse) r.tree
      rcases ha : Node.remove r.tree (splitDot (getRegistryKey v)) with ⟨ok, t2⟩
      rw [Node.remove] at ha
      rw [ha] at hsp
      cases ok with
      | true =>
        have hlen := hsp.1 rfl
        simp only [] at hlen
        simp [stepDelta, DefaultRegistry.Len, Node.size]
        omega
      | false =>
        have hun := hsp.2 rfl
        simp only [] at hun
        simp [stepDelta, DefaultRegistry.Len, Node.size, hun]
  | updateTTL u ttl e =>
    simp only [DefaultRegistry.step, DefaultRegistry.UpdateTTL]
    cases hm : alookup r.nodes u with
    | none => simp [stepDelta]
    | some v => simp [stepDelta, DefaultRegistry.Len]
  | getUUID u now =>
    have hd : ∀ e, stepDelta (RegOp.getUUID u now) e = 0 := fun _ => rfl
    simp only [DefaultRegistry.step, DefaultRegistry.GetUUID, hd]
    cases alookup r.nodes u with
    | none => simp [DefaultRegistry.Len]
    | some v =>
      by_cases htt : 1 ≤ v.RemainingTTL now
      · simp [htt, DefaultRegistry.Len]
      · simp [htt, DefaultRegistry.Len]
  | get d now =>
    have hd : ∀ e, stepDelta (RegOp.get d now) e = 0 := fun _ => rfl
    have ht : ((r.Get d now).2).tree = r.tree := rfl
    have h2 : (r.step (RegOp.get d now)).2.Len = r.Len := by
      show ((r.Get d now).2).tree.size = r.tree.size
      rw [ht]
    rw [h2, hd]
    ring

/-- Over any run, the root counter moves by exactly the net number of
successful adds minus successful removes. -/
theorem run_len (ops : List RegOp) :
    ∀ r : DefaultRegistry, (run r ops).Len = r.Len + netCount r ops := by
  induction ops with
  | nil => intro r; simp [run, netCount]
  | cons op ops ih =>
    intro r
    rw [run, netCount, ih, step_len]
    ring

/-- A concrete service record with dot-free label fields, used to
exercise the theorems on concrete inputs. -/
def svcA : Service := ⟨"u1", "web", "1-0-0", "prod", "east", "h1", 80, 10, 1000, false⟩

/-- A second concrete service record. -/
def svcB : Service := ⟨"u2", "web", "1-0-0", "prod", "west", "h2", 81, 10, 1000, false⟩

/-- C5: For every legal sequence of Add and Remove operations through the
registry API, Len() (the root node subtree count) equals the number of
services successfully added and not yet removed: each successful Add
increases it by exactly one, each successful Remove/RemoveUUID decreases
it by exactly one, and failed operations, TTL updates and reads leave it
unchanged. -/
theorem C5_registry_len :
    (∀ ops : List RegOp, (run New ops).Len = netCount New ops) ∧
    (∀ (r : DefaultRegistry) (s : Service), (r.Add s).1 = none →
        (r.Add s).2.Len = r.Len + 1) ∧
    (∀ (r : DefaultRegistry) (s : Service), (r.Add s).1 ≠ none →
        (r.Add s).2.Len = r.Len) ∧
    (∀ (r : DefaultRegistry) (s : Service), (r.Remove s).1 = none →
        (r.Remove s).2.Len = r.Len - 1) ∧
    (∀ (r : DefaultRegistry) (u : String), (r.RemoveUUID u).1 = none →
        (r.RemoveUUID u).2.Len = r.Len - 1) ∧
    (∀ (r : DefaultRegistry) (s : Service), (r.Remove s).1 ≠ none →
        (r.Remove s).2.Len = r.Len) ∧
    (∀ (r : DefaultRegistry) (u : String), (r.RemoveUUID u).1 ≠ none →
        (r.RemoveUUID u).2.Len = r.Len) := by
  refine ⟨fun ops => ?_, fun r s h => ?_, fun r s h => ?_, fun r s h => ?_,
    fun r u h => ?_, fun r s h => ?_, fun r u h => ?_⟩
  · have := run_len ops New
    have hz : New.Len = 0 := rfl
    rw [this, hz, zero_add]
  · have := step_len r (.add s)
    simp only [DefaultRegistry.step] at this
    rw [this, h, stepDelta]
  · have := step_len r (.add s)
    simp only [DefaultRegistry.step] at this
    rw [this]
    cases he : (r.Add s).1 with
    | none => exact absurd he h
    | some e => cases e <;> simp [stepDelta]
  · have := step_len r (.remove s)
    simp only [DefaultRegistry.step] at this
    rw [this, h]
    simp [stepDelta]
    ring
  · have := step_len r (.removeUUID u)
    simp only [DefaultRegistry.step] at this
    rw [this, h]
    simp [stepDelta]
    ring
  · have := step_len r (.remove s)
    simp only [DefaultRegistry.step] at this
    rw [this]
    cases he : (r.Remove s).1 with
    | none => exact absurd he h
    | some e => cases e <;> simp [stepDelta]
  · have := step_len r (.removeUUID u)
    simp only [DefaultRegistry.step] at this
    rw [this]
    cases he : (r.RemoveUUID u).1 with
    | none => exact absurd he h
    | some e => cases e <;> simp [stepDelta]

/-- Concrete exercise of C5_registry_len: a fresh Add increments Len, a
duplicate Add leaves it unchanged, a successful Remove decrements it. -/
theorem C5_registry_len_witness :
    (New.Add svcA).1 = none ∧
    (New.Add svcA).2.Len = New.Len + 1 ∧
    ((New.Add svcA).2.Add svcA).1 ≠ none ∧
    ((New.Add svcA).2.Add svcA).2.Len = (New.Add svcA).2.Len ∧
    ((New.Add svcA).2.Remove svcA).1 = none ∧
    ((New.Add svcA).2.Remove svcA).2.Len = (New.Add svcA).2.Len - 1 :=
  ⟨by decide, C5_registry_len.2.1 New svcA (by decide),
   by decide, C5_registry_len.2.2.1 (New.Add svcA).2 svcA (by decide),
   by decide, C5_registry_len.2.2.2.1 (New.Add svcA).2 svcA (by decide)⟩

/-- C2: Add(s) returns AlreadyExists when s.uuid is already in the id
map (leaving the state untouched); on success it inserts the leaf into
the name tree, records the service in the id map and, when DNSSEC is
enabled, adds the four owner names to the denial index; and whenever Add
returns an error the tree, the id map and the denial index are all
unchanged (the failed tree.add provably performs no mutation). -/
theorem C2_add_atomic (r : DefaultRegistry) (s : Service) :
    ((alookup r.nodes s.uuid).isSome → r.Add s = (some .exists0, r)) ∧
    (∀ r2, r.Add s = (none, r2) →
      (Node.add r.tree (splitDot (getRegistryKey s)) s).1 = true ∧
      r2.tree = (Node.add r.tree (splitDot (getRegistryKey s)) s).2 ∧
      r2.nodes = aset r.nodes s.uuid s ∧
      r2.nsec = (if r.dnssec then addOwnerNSECs r.nsec s else r.nsec) ∧
      r2.dnssec = r.dnssec) ∧
    (∀ e r2, r.Add s = (some e, r2) → r2 = r) := by
  by_cases hm : (alookup r.nodes s.uuid).isSome
  · refine ⟨fun _ => ?_, fun r2 h => ?_, fun e r2 h => ?_⟩
    · simp [DefaultRegistry.Add, hm]
    · simp [DefaultRegistry.Add, hm] at h
    · simp [DefaultRegistry.Add, hm] at h
      exact h.2.symm
  · have hsp := addW_spec ((splitDot (getRegistryKey s)).reverse) r.tree s
    refine ⟨fun hc => absurd hc hm, fun r2 h => ?_, fun e r2 h => ?_⟩
    · simp only [DefaultRegistry.Add, hm, if_false, Bool.false_eq_true, Node.add] at h ⊢
      rcases ha : Node.addW r.tree (splitDot (getRegistryKey s)).reverse s with ⟨ok, t2⟩
      rw [ha] at h hsp
      cases ok with
      | true =>
        simp only [if_true, Bool.false_eq_true, if_false, Prod.mk.injEq] at h
        cases h.2.symm
        exact ⟨rfl, rfl, rfl, rfl, rfl⟩
      | false => simp at h
    · simp only [DefaultRegistry.Add, hm, if_false, Bool.false_eq_true, Node.add] at h
      rcases ha : Node.addW r.tree (splitDot (getRegistryKey s)).reverse s with ⟨ok, t2⟩
      rw [ha] at h hsp
      cases ok with
      | true => simp at h
      | false =>
        have ht2 : t2 = r.tree := by simpa using hsp.2 rfl
        simp only [if_true, Bool.false_eq_true, if_false, Prod.mk.injEq] at h
        cases h.2.symm
        rw [ht2]

/-- Concrete exercise of C2_add_atomic: a duplicate Add is refused and
leaves the registry unchanged; a fresh Add stores the service. -/
theorem C2_add_atomic_witness :
    ((alookup (New.Add svcA).2.nodes svcA.uuid).isSome ∧
      (New.Add svcA).2.Add svcA = (some .exists0, (New.Add svcA).2)) ∧
    ((New.Add svcA).1 = none ∧
      (New.Add svcA).2.nodes = aset New.nodes svcA.uuid svcA) := by
  constructor
  · have h := (C2_add_atomic (New.Add svcA).2 svcA).1 (by decide)
    exact ⟨by decide, h⟩
  · have h1 : (New.Add svcA).1 = none := by decide
    have hp : New.Add svcA = (none, (New.Add svcA).2) := by
      conv_lhs => rw [show New.Add svcA = ((New.Add svcA).1, (New.Add svcA).2) from rfl]
      rw [h1]
    have h := (C2_add_atomic New svcA).2.1 (New.Add svcA).2 hp
    exact ⟨h1, h.2.2.1⟩

/-! ### Heap effects and TTL filtering of node.get -/

/-- Updating the TTL is idempotent: the remaining TTL depends only on the
expiration time, which UpdateTTL does not change. -/
theorem UpdateTTL_idem (s : Service) (now : Int) :
    (s.UpdateTTL now).UpdateTTL now = s.UpdateTTL now := rfl

/-- The per-cell evolution a tree read can cause: every cell keeps its key
and either keeps its record or has the record's ttl overwritten with the
remaining TTL; no cell is created or dropped. -/
def HeapTouched (now : Int) (h h2 : Heap) : Prop :=
  List.Forall₂ (fun p q => q.1 = p.1 ∧ (q.2 = p.2 ∨ q.2 = p.2.UpdateTTL now)) h h2

theorem heapTouched_refl (now : Int) (h : Heap) : HeapTouched now h h := by
  induction h with
  | nil => exact List.Forall₂.nil
  | cons p t ih => exact List.Forall₂.cons ⟨rfl, Or.inl rfl⟩ ih

theorem heapTouched_trans {now : Int} {h1 h2 h3 : Heap}
    (a : HeapTouched now h1 h2) (b : HeapTouched now h2 h3) :
    HeapTouched now h1 h3 := by
  induction a generalizing h3 with
  | nil => cases b; exact List.Forall₂.nil
  | cons hpq ha ih =>
    cases b with
    | cons hqr hb =>
      refine List.Forall₂.cons ⟨hqr.1.trans hpq.1, ?_⟩ (ih hb)
      rcases hpq.2 with h | h <;> rcases hqr.2 with h2 | h2 <;>
        simp [h2, h, UpdateTTL_idem]

/-- Overwriting a present cell with the TTL-updated record is a
HeapTouched step. -/
theorem heapTouched_aset {now : Int} (h : Heap) (u : String) (s : Service)
    (hl : alookup h u = some s) :
    HeapTouched now h (aset h u (s.UpdateTTL now)) := by
  induction h with
  | nil => simp [alookup] at hl
  | cons p t ih =>
    obtain ⟨k, v⟩ := p
    by_cases hk : k = u
    · subst hk
      simp [alookup] at hl
      subst hl
      simp only [aset, if_pos rfl]
      exact List.Forall₂.cons ⟨rfl, Or.inr rfl⟩ (heapTouched_refl now t)
    · simp only [alookup, hk, if_false] at hl
      simp only [aset, hk, if_false]
      exact List.Forall₂.cons ⟨rfl, Or.inl rfl⟩ (ih hl)

theorem heapTouched_alookup {now : Int} {h h2 : Heap}
    (ht : HeapTouched now h h2) (u : String) :
    (alookup h2 u = none ↔ alookup h u = none) ∧
    (∀ s2, alookup h2 u = some s2 →
      ∃ s1, alookup h u = some s1 ∧ (s2 = s1 ∨ s2 = s1.UpdateTTL now)) := by
  induction ht with
  | nil => simp [alookup]
  | cons hpq hrest ih =>
    rename_i p q t1 t2
    obtain ⟨pk, pv⟩ := p
    obtain ⟨qk, qv⟩ := q
    obtain ⟨hk, hv⟩ := hpq
    have hk2 : qk = pk := hk
    have hv2 : qv = pv ∨ qv = pv.UpdateTTL now := hv
    subst hk2
    by_cases hu : qk = u
    · subst hu
      refine ⟨by simp [alookup], fun s2 hs2 => ?_⟩
      simp [alookup] at hs2
      subst hs2
      exact ⟨pv, by simp [alookup], hv2⟩
    · refine ⟨?_, fun s2 hs2 => ?_⟩
      · simpa [alookup, hu] using (ih).1
      · simp only [alookup, hu, if_false] at hs2 ⊢
        exact (ih).2 s2 hs2

/-- A cell holding an already-updated record is stable under any further
read evolution. -/
theorem heapTouched_stable {now : Int} {h h2 : Heap}
    (ht : HeapTouched now h h2) (u : String) (s : Service)
    (hl : alookup h u = some s) (hs : s.UpdateTTL now = s) :
    alookup h2 u = some s := by
  induction ht with
  | nil => simp [alookup] at hl
  | cons hpq hrest ih =>
    rename_i p q t1 t2
    obtain ⟨pk, pv⟩ := p
    obtain ⟨qk, qv⟩ := q
    obtain ⟨hk, hv⟩ := hpq
    have hk2 : qk = pk := hk
    have hv2 : qv = pv ∨ qv = pv.UpdateTTL now := hv
    subst hk2
    by_cases hu : qk = u
    · subst hu
      simp [alookup] at hl
      subst hl
      rcases hv2 with h | h <;> simp [alookup, h, hs]
    · simp only [alookup, hu, if_false] at hl ⊢
      exact ih hl

/-- Heaps whose keys are the uuid of the stored record. -/
abbrev WellKeyed (h : Heap) : Prop := ∀ p ∈ h, (p.2).uuid = p.1

theorem wellKeyed_touched {now : Int} {h h2 : Heap}
    (ht : HeapTouched now h h2) (hw : WellKeyed h) : WellKeyed h2 := by
  induction ht with
  | nil => intro p hp; cases hp
  | cons hpq hrest ih =>
    rename_i p q t1 t2
    intro x hx
    cases hx with
    | head =>
      obtain ⟨hk, hv⟩ := hpq
      have := hw p (by simp)
      rcases hv with h | h <;> rw [h, hk] <;>
        simpa [Service.UpdateTTL] using this
    | tail _ hmem => exact ih (fun y hy => hw y (List.mem_cons_of_mem _ hy)) x hmem

/-- A successful association-list lookup yields a member pair. -/
theorem alookup_mem {α : Type} (l : List (String × α)) (u : String) (v : α)
    (h : alookup l u = some v) : (u, v) ∈ l := by
  induction l with
  | nil => simp [alookup] at h
  | cons p t ih =>
    obtain ⟨k, x⟩ := p
    by_cases hk : k = u
    · subst hk
      simp [alookup] at h
      subst h
      exact List.mem_cons_self _ _
    · simp only [alookup, hk, if_false] at h
      exact List.mem_cons_of_mem _ (ih h)

/-- What one bottom-level touch does: the heap takes a HeapTouched step,
and a returned record has at least 2 seconds of remaining TTL, is
TTL-stable, and sits in the updated heap under its cell key. -/
theorem touchChild_spec (c : Node) (h : Heap) (now : Int) :
    HeapTouched now h (touchChild c h now).2 ∧
    ∀ s, (touchChild c h now).1 = some s →
      2 ≤ s.RemainingTTL now ∧ s.UpdateTTL now = s ∧
      ∃ u s0, c.vid = some u ∧ alookup h u = some s0 ∧ s = s0.UpdateTTL now ∧
        (touchChild c h now).2 = aset h u s := by
  cases hv : c.vid with
  | none =>
    simp only [touchChild, hv]
    exact ⟨heapTouched_refl now h, by simp⟩
  | some u =>
    cases hlk : alookup h u with
    | none =>
      simp only [touchChild, hv, hlk]
      exact ⟨heapTouched_refl now h, by simp⟩
    | some s0 =>
      simp only [touchChild, hv, hlk]
      refine ⟨heapTouched_aset h u s0 hlk, fun s hs => ?_⟩
      by_cases hgt : 1 < (s0.UpdateTTL now).ttl
      · rw [if_pos hgt] at hs
        cases hs
        have h1 : (s0.UpdateTTL now).ttl = s0.RemainingTTL now := rfl
        have h2 : (s0.UpdateTTL now).RemainingTTL now = s0.RemainingTTL now := rfl
        refine ⟨by omega, UpdateTTL_idem s0 now, u, s0, rfl, hlk, rfl, rfl⟩
      · rw [if_neg hgt] at hs
        cases hs

/-- getBottom accumulates only records passing the TTL filter, takes
HeapTouched steps, and (on a well-keyed heap) leaves every returned record
stored in the resulting heap under its uuid. -/
theorem getBottom_spec (cs : List (String × Node)) :
    ∀ (h : Heap) (now : Int),
      HeapTouched now h (Node.getBottom cs h now).2 ∧
      ∀ s ∈ (Node.getBottom cs h now).1,
        2 ≤ s.RemainingTTL now ∧ s.UpdateTTL now = s ∧
        (WellKeyed h → alookup (Node.getBottom cs h now).2 s.uuid = some s) := by
  induction cs with
  | nil => intro h now; exact ⟨heapTouched_refl now h, by simp [Node.getBottom]⟩
  | cons p cs ih =>
    intro h now
    obtain ⟨k, c⟩ := p
    have htc := touchChild_spec c h now
    simp only [Node.getBottom]
    rcases hr : touchChild c h now with ⟨r, h1⟩
    rw [hr] at htc
    have hbt := ih h1 now
    rcases hg : Node.getBottom cs h1 now with ⟨ss, h2⟩
    rw [hg] at hbt
    have hth2 : HeapTouched now h h2 := heapTouched_trans htc.1 hbt.1
    cases r with
    | none =>
      refine ⟨hth2, fun s hmem => ?_⟩
      have := hbt.2 s hmem
      exact ⟨this.1, this.2.1, fun hwk =>
        this.2.2 (wellKeyed_touched htc.1 hwk)⟩
    | some sv =>
      have hsv := htc.2 sv rfl
      refine ⟨hth2, fun s hmem => ?_⟩
      rcases List.mem_cons.mp hmem with hcase | hcase
      · subst hcase
        refine ⟨hsv.1, hsv.2.1, fun hwk => ?_⟩
        rcases hsv.2.2 with ⟨u, s0, _, hlk0, hval, hset⟩
        have hset2 : h1 = aset h u s := hset
        have hu : s0.uuid = u := by
          have := alookup_mem h u s0 hlk0
          exact hwk _ this
        have hcell : alookup h1 s.uuid = some s := by
          rw [hset2, alookup_aset]
          have hsu : s.uuid = u := by rw [hval]; exact hu
          simp [hsu]
        exact heapTouched_stable hbt.1 s.uuid s hcell hsv.2.1
      · have := hbt.2 s hcase
        exact ⟨this.1, this.2.1, fun hwk =>
          this.2.2 (wellKeyed_touched htc.1 hwk)⟩

/-- The recursive wildcard loop preserves the same read contract as the
per-child query it runs. -/
theorem getLoop_spec (now : Int) (f : Node → Heap → Option (List Service) × Heap)
    (hf : ∀ (c : Node) (h : Heap),
      HeapTouched now h (f c h).2 ∧
      ∀ l, (f c h).1 = some l → ∀ s ∈ l,
        2 ≤ s.RemainingTTL now ∧ s.UpdateTTL now = s ∧
        (WellKeyed h → alookup (f c h).2 s.uuid = some s)) :
    ∀ (cs : List (String × Node)) (h : Heap),
      HeapTouched now h (getLoop f cs h).2.2 ∧
      ∀ s ∈ (getLoop f cs h).1,
        2 ≤ s.RemainingTTL now ∧ s.UpdateTTL now = s ∧
        (WellKeyed h → alookup (getLoop f cs h).2.2 s.uuid = some s) := by
  intro cs
  induction cs with
  | nil => intro h; exact ⟨heapTouched_refl now h, by simp [getLoop]⟩
  | cons p cs ih =>
    intro h
    obtain ⟨k, c⟩ := p
    have hfc := hf c h
    simp only [getLoop]
    rcases hr : f c h with ⟨r, h1⟩
    rw [hr] at hfc
    have hlp := ih h1
    rcases hg : getLoop f cs h1 with ⟨ss, ok, h2⟩
    rw [hg] at hlp
    dsimp only at hfc hlp ⊢
    have hth2 : HeapTouched now h h2 := heapTouched_trans hfc.1 hlp.1
    cases r with
    | none =>
      dsimp only
      refine ⟨hth2, fun s hmem => ?_⟩
      have := hlp.2 s hmem
      exact ⟨this.1, this.2.1, fun hwk => this.2.2 (wellKeyed_touched hfc.1 hwk)⟩
    | some sl =>
      dsimp only
      refine ⟨hth2, fun s hmem => ?_⟩
      rcases List.mem_append.mp hmem with hcase | hcase
      · have := hfc.2 sl rfl s hcase
        refine ⟨this.1, this.2.1, fun hwk => ?_⟩
        have hcell := this.2.2 hwk
        exact heapTouched_stable hlp.1 s.uuid s hcell this.2.1
      · have := hlp.2 s hcase
        exact ⟨this.1, this.2.1, fun hwk => this.2.2 (wellKeyed_touched hfc.1 hwk)⟩

/-- The full read contract of node.get (reversed-path form): the heap
evolves by TTL overwrites only, and every returned record has remaining
TTL at least 2, equals its own TTL update, and (on a well-keyed heap) is
what the resulting heap stores under its uuid. -/
theorem getW_spec (t : List String) :
    ∀ (n : Node) (h : Heap) (now : Int),
      HeapTouched now h (Node.getW n t h now).2 ∧
      ∀ l, (Node.getW n t h now).1 = some l → ∀ s ∈ l,
        2 ≤ s.RemainingTTL now ∧ s.UpdateTTL now = s ∧
        (WellKeyed h → alookup (Node.getW n t h now).2 s.uuid = some s) := by
  induction t with
  | nil =>
    intro n h now
    exact ⟨heapTouched_refl now h, by simp [Node.getW]⟩
  | cons k rest ih =>
    intro n h now
    cases rest with
    | nil =>
      simp only [Node.getW]
      by_cases hx : k = "*"
      · rw [if_pos hx]
        by_cases he : n.leaves.isEmpty
        · rw [if_pos he]
          exact ⟨heapTouched_refl now h, by simp⟩
        · rw [if_neg he]
          have hbspec := getBottom_spec n.leaves h now
          rcases hg : Node.getBottom n.leaves h now with ⟨ss, h2⟩
          rw [hg] at hbspec
          dsimp only at hbspec ⊢
          refine ⟨hbspec.1, fun l hl s hmem => ?_⟩
          simp only [Option.some.injEq] at hl
          subst hl
          exact hbspec.2 s hmem
      · rw [if_neg hx]
        cases halk : alookup n.leaves k with
        | none => exact ⟨heapTouched_refl now h, by simp⟩
        | some c =>
          dsimp only
          have htc := touchChild_spec c h now
          rcases hr : touchChild c h now with ⟨r, h2⟩
          rw [hr] at htc
          dsimp only at htc ⊢
          cases r with
          | none =>
            dsimp only
            refine ⟨htc.1, fun l hl s hmem => ?_⟩
            simp only [Option.some.injEq] at hl
            subst hl
            cases hmem
          | some sv =>
            dsimp only
            have hsv := htc.2 sv rfl
            refine ⟨htc.1, fun l hl s hmem => ?_⟩
            simp only [Option.some.injEq] at hl
            subst hl
            rcases List.mem_singleton.mp hmem with rfl
            refine ⟨hsv.1, hsv.2.1, fun hwk => ?_⟩
            rcases hsv.2.2 with ⟨u, s0, _, hlk0, hval, hset⟩
            have hset2 : h2 = aset h u s := hset
            have hu : s0.uuid = u := hwk _ (alookup_mem h u s0 hlk0)
            rw [hset2, alookup_aset]
            have hsu : s.uuid = u := by rw [hval]; exact hu
            simp [hsu]
    | cons k2 rs =>
      simp only [Node.getW]
      by_cases hx : k = "*"
      · rw [if_pos hx]
        by_cases he : n.leaves.isEmpty
        · rw [if_pos he]
          exact ⟨heapTouched_refl now h, by simp⟩
        · rw [if_neg he]
          have hloop := getLoop_spec now
            (fun c hh => Node.getW c (k2 :: rs) hh now)
            (fun c hh => ih c hh now) n.leaves h
          rcases hg : getLoop (fun c hh => Node.getW c (k2 :: rs) hh now) n.leaves h
            with ⟨ss, ok, h2⟩
          rw [hg] at hloop
          dsimp only at hloop ⊢
          cases ok with
          | true =>
            refine ⟨hloop.1, fun l hl s hmem => ?_⟩
            simp only [if_true, Option.some.injEq] at hl
            subst hl
            simpa using hloop.2 s hmem
          | false =>
            refine ⟨hloop.1, fun l hl => ?_⟩
            simp at hl
      · rw [if_neg hx]
        cases halk : alookup n.leaves k with
        | none => exact ⟨heapTouched_refl now h, by simp⟩
        | some c =>
          dsimp only
          exact ih c h now

/-- C3: a service appears in the result of a name-tree get only if its
remaining TTL at query time is at least 2 seconds; records below that are
filtered out of every matching branch, wildcard or concrete (the filter in
the code is `TTL > 1` on the freshly updated 32-bit TTL).  Stated both for
node.get directly and for the registry Get wrapper. -/
theorem C3_get_ttl_filter :
    (∀ (n : Node) (tree : List String) (h : Heap) (now : Int)
        (l : List Service) (h2 : Heap),
      Node.get n tree h now = (some l, h2) → ∀ s ∈ l, 2 ≤ s.RemainingTTL now) ∧
    (∀ (r : DefaultRegistry) (domain : String) (now : Int) (l : List Service),
      (r.Get domain now).1 = some l → ∀ s ∈ l, 2 ≤ s.RemainingTTL now) := by
  constructor
  · intro n tree h now l h2 hg s hmem
    have h1 : (Node.getW n tree.reverse h now).1 = some l := by
      have := congrArg Prod.fst hg
      simpa [Node.get] using this
    exact ((getW_spec tree.reverse n h now).2 l h1 s hmem).1
  · intro r domain now l hg s hmem
    have h1 : (Node.getW r.tree (getQueryLabels domain).reverse r.nodes now).1 = some l := hg
    exact ((getW_spec (getQueryLabels domain).reverse r.tree r.nodes now).2 l h1 s hmem).1

/-- Concrete exercise of C3_get_ttl_filter: a wildcard query on a registry
holding one service with 1000 seconds of remaining TTL returns it, and the
theorem yields the 2-second bound; a service with only 1 second left is
filtered out (empty successful result). -/
theorem C3_get_ttl_filter_witness :
    ((New.Add svcA).2.Get "*" 0).1 = some [{ svcA with ttl := 1000 }] ∧
    2 ≤ ({ svcA with ttl := 1000 } : Service).RemainingTTL 0 ∧
    ((New.Add { svcA with expires := 1 }).2.Get "*" 0).1 = some [] :=
  ⟨by decide,
   C3_get_ttl_filter.2 (New.Add svcA).2 "*" 0 [{ svcA with ttl := 1000 }]
     (by decide) { svcA with ttl := 1000 } (by decide),
   by decide⟩

/-- C4: GetUUID returns the stored record with its ttl field replaced by
the current remaining TTL when the record exists and its remaining TTL is
at least 1 second, and returns NotFound (modelled `none`) exactly when the
record is absent from the id map or its remaining TTL is below 1 second. -/
theorem C4_getUUID_spec (r : DefaultRegistry) (u : String) (now : Int) :
    (∀ v, alookup r.nodes u = some v → 1 ≤ v.RemainingTTL now →
      (r.GetUUID u now).1 = some { v with ttl := v.RemainingTTL now }) ∧
    ((r.GetUUID u now).1 = none ↔
      alookup r.nodes u = none ∨
        ∃ v, alookup r.nodes u = some v ∧ v.RemainingTTL now < 1) := by
  rcases Option.eq_none_or_eq_some (alookup r.nodes u) with hlk | ⟨v, hlk⟩
  · refine ⟨fun v hv => (by rw [hlk] at hv; cases hv), ?_⟩
    simp [DefaultRegistry.GetUUID, hlk]
  · constructor
    · intro w hw httl
      rw [hlk] at hw
      cases hw
      simp only [DefaultRegistry.GetUUID, hlk]
      rw [if_pos httl]
    · by_cases httl : 1 ≤ v.RemainingTTL now
      · simp only [DefaultRegistry.GetUUID, hlk]
        rw [if_pos httl]
        simp [hlk]
        omega
      · simp only [DefaultRegistry.GetUUID, hlk]
        rw [if_neg httl]
        simp [hlk]
        omega

/-- Concrete exercise of C4_getUUID_spec: a live record is returned with
its remaining TTL; the same record with its expiration in the past is
reported absent. -/
theorem C4_getUUID_spec_witness :
    alookup (New.Add svcA).2.nodes "u1" = some svcA ∧
    1 ≤ svcA.RemainingTTL 0 ∧
    ((New.Add svcA).2.GetUUID "u1" 0).1 =
      some { svcA with ttl := svcA.RemainingTTL 0 } ∧
    ((New.Add svcA).2.GetUUID "u1" 2000).1 = none :=
  ⟨by decide, by decide,
   (C4_getUUID_spec (New.Add svcA).2 "u1" 0).1 svcA (by decide) (by decide),
   ((C4_getUUID_spec (New.Add svcA).2 "u1" 2000).2).mpr
     (Or.inr ⟨svcA, by decide, by decide⟩)⟩

/-- C10: reads are not side-effect-free.  A GetUUID that finds the record
overwrites the stored ttl in place with the remaining TTL (touching
nothing else); a tree Get overwrites the ttl of every record it returns
(so the announced ttl is lost after the first read returning the record),
creates or drops no cell, and changes no field other than ttl. -/
theorem C10_reads_overwrite_ttl :
    (∀ (r : DefaultRegistry) (u : String) (now : Int) (v : Service),
      alookup r.nodes u = some v →
      (r.GetUUID u now).2.nodes = aset r.nodes u { v with ttl := v.RemainingTTL now } ∧
      (r.GetUUID u now).2.tree = r.tree ∧ (r.GetUUID u now).2.nsec = r.nsec) ∧
    (∀ (r : DefaultRegistry) (domain : String) (now : Int), WellKeyed r.nodes →
      (∀ l, (r.Get domain now).1 = some l → ∀ s ∈ l,
        alookup (r.Get domain now).2.nodes s.uuid = some s ∧
        s.ttl = s.RemainingTTL now) ∧
      (∀ u, alookup (r.Get domain now).2.nodes u = none ↔ alookup r.nodes u = none) ∧
      (∀ u s2, alookup (r.Get domain now).2.nodes u = some s2 →
        ∃ s1, alookup r.nodes u = some s1 ∧
          (s2 = s1 ∨ s2 = { s1 with ttl := s1.RemainingTTL now }))) := by
  constructor
  · intro r u now v hv
    simp only [DefaultRegistry.GetUUID, hv]
    by_cases httl : 1 ≤ v.RemainingTTL now
    · rw [if_pos httl]
      exact ⟨rfl, rfl, rfl⟩
    · rw [if_neg httl]
      exact ⟨rfl, rfl, rfl⟩
  · intro r domain now hwk
    have hspec := getW_spec (getQueryLabels domain).reverse r.tree r.nodes now
    rcases hg : Node.getW r.tree (getQueryLabels domain).reverse r.nodes now
      with ⟨res0, hp2⟩
    rw [hg] at hspec
    have hGet : r.Get domain now = (res0, { r with nodes := hp2 }) := by
      simp only [DefaultRegistry.Get, Node.get, hg]
    have hlk := heapTouched_alookup hspec.1
    refine ⟨fun l hl s hmem => ?_, fun u => ?_, fun u s2 hs2 => ?_⟩
    · simp only [hGet] at hl ⊢
      have hss := hspec.2 l hl s hmem
      refine ⟨hss.2.2 hwk, ?_⟩
      have h3 : (s.UpdateTTL now).ttl = s.ttl := by rw [hss.2.1]
      simpa [Service.UpdateTTL] using h3.symm
    · simp only [hGet]
      exact (hlk u).1
    · simp only [hGet] at hs2
      exact (hlk u).2 s2 hs2

/-- Concrete exercise of C10_reads_overwrite_ttl: after a wildcard Get the
stored record's ttl cell holds the remaining TTL instead of the announced
one, and after GetUUID the heap is the explicit ttl overwrite. -/
theorem C10_reads_overwrite_ttl_witness :
    alookup (New.Add svcA).2.nodes "u1" = some svcA ∧
    ((New.Add svcA).2.GetUUID "u1" 0).2.nodes =
      aset (New.Add svcA).2.nodes "u1" { svcA with ttl := svcA.RemainingTTL 0 } ∧
    WellKeyed (New.Add svcA).2.nodes ∧
    alookup ((New.Add svcA).2.Get "*" 0).2.nodes
        ({ svcA with ttl := 1000 } : Service).uuid =
      some { svcA with ttl := 1000 } ∧
    ({ svcA with ttl := 1000 } : Service).uuid = "u1" :=
  ⟨by decide,
   (C10_reads_overwrite_ttl.1 (New.Add svcA).2 "u1" 0 svcA (by decide)).1,
   by decide,
   ((C10_reads_overwrite_ttl.2 (New.Add svcA).2 "*" 0 (by decide)).1
     [{ svcA with ttl := 1000 }] (by decide) { svcA with ttl := 1000 } (by decide)).1,
   by decide⟩

/-! ### Lemmas about the Go string order and sort.Search -/

theorem charsLt_irrefl : ∀ l : List Char, charsLt l l = false := by
  intro l
  induction l with
  | nil => rfl
  | cons a as ih => simp [charsLt, ih]

theorem strLt_irrefl (a : String) : strLt a a = false := charsLt_irrefl a.data

theorem charsLt_trans :
    ∀ (a b c : List Char), charsLt a b = true → charsLt b c = true →
      charsLt a c = true := by
  intro a
  induction a with
  | nil =>
    intro b c hab hbc
    cases b with
    | nil => simp [charsLt] at hab
    | cons x xs =>
      cases c with
      | nil => simp [charsLt] at hbc
      | cons y ys => simp [charsLt]
  | cons x xs ih =>
    intro b c hab hbc
    cases b with
    | nil => simp [charsLt] at hab
    | cons y ys =>
      cases c with
      | nil => simp [charsLt] at hbc
      | cons z zs =>
        simp only [charsLt] at hab hbc ⊢
        by_cases hxy : x.toNat = y.toNat
        · rw [if_pos hxy] at hab
          by_cases hyz : y.toNat = z.toNat
          · rw [if_pos hyz] at hbc
            rw [if_pos (hxy.trans hyz)]
            exact ih ys zs hab hbc
          · rw [if_neg hyz] at hbc
            simp only [decide_eq_true_eq] at hbc
            have hxz : ¬ x.toNat = z.toNat := by omega
            rw [if_neg hxz]
            simp only [decide_eq_true_eq]
            omega
        · rw [if_neg hxy] at hab
          simp only [decide_eq_true_eq] at hab
          by_cases hyz : y.toNat = z.toNat
          · have hxz : ¬ x.toNat = z.toNat := by omega
            rw [if_neg hxz]
            simp only [decide_eq_true_eq]
            omega
          · rw [if_neg hyz] at hbc
            simp only [decide_eq_true_eq] at hbc
            have hxz : ¬ x.toNat = z.toNat := by omega
            rw [if_neg hxz]
            simp only [decide_eq_true_eq]
            omega

theorem strLt_trans {a b c : String} (h1 : strLt a b = true)
    (h2 : strLt b c = true) : strLt a c = true :=
  charsLt_trans a.data b.data c.data h1 h2

theorem strLt_asymm {a b : String} (h1 : strLt a b = true) :
    strLt b a = false := by
  by_contra hc
  have h2 : strLt b a = true := by
    cases hba : strLt b a with
    | false => exact absurd hba hc
    | true => rfl
  have := strLt_trans h1 h2
  rw [strLt_irrefl] at this
  cases this

theorem strLt_ne {a b : String} (h1 : strLt a b = true) : a ≠ b := by
  intro hc
  subst hc
  rw [strLt_irrefl] at h1
  cases h1

/-- The length of a takeWhile prefix is pinned down by where the
predicate first fails. -/
theorem takeWhile_len {α : Type} (p : α → Bool) (d : α) :
    ∀ (l : List α) (i : Nat), i ≤ l.length →
      (∀ j, j < i → p (l.getD j d) = true) →
      (i = l.length ∨ p (l.getD i d) = false) →
      (l.takeWhile p).length = i := by
  intro l
  induction l with
  | nil =>
    intro i hle _ _
    simp at hle
    simp [hle]
  | cons a t ih =>
    intro i hle hall hstop
    cases i with
    | zero =>
      rcases hstop with hstop | hstop
      · simp at hstop
      · rw [List.getD_cons_zero] at hstop
        simp [List.takeWhile, hstop]
    | succ i =>
      have hpa : p a = true := hall 0 (Nat.succ_pos i)
      simp only [List.takeWhile, hpa, List.length_cons]
      have hrec := ih i (by simpa using hle)
        (fun j hj => hall (j + 1) (by omega))
        (by rcases hstop with hstop | hstop
            · left; simpa using hstop
            · right; simpa using hstop)
      omega


/-- Strict sortedness of the denial index, in the Go string order. -/
def nsecSorted (nsec : List denialReference) : Prop :=
  List.Pairwise (fun a b => strLt a.name b.name = true) nsec

theorem sorted_getD_lt {nsec : List denialReference} (hs : nsecSorted nsec)
    {i j : Nat} (hij : i < j) (hj : j < nsec.length) :
    strLt ((nsec.getD i ⟨"", 0⟩).name) ((nsec.getD j ⟨"", 0⟩).name) = true := by
  have hi : i < nsec.length := Nat.lt_trans hij hj
  rw [List.getD_eq_get _ _ hi, List.getD_eq_get _ _ hj]
  exact List.pairwise_iff_get.mp hs ⟨i, hi⟩ ⟨j, hj⟩ hij

/-- Pinning down sort.Search: the insertion point is i when everything
before i is below the key and position i (when it exists) is not. -/
theorem lowerBound_eq (nsec : List denialReference) (key : String) (i : Nat)
    (hle : i ≤ nsec.length)
    (hbelow : ∀ j, j < i → strLt (nsec.getD j ⟨"", 0⟩).name key = true)
    (hstop : i = nsec.length ∨ strLt (nsec.getD i ⟨"", 0⟩).name key = false) :
    lowerBound nsec key = i :=
  takeWhile_len (fun d : denialReference => strLt d.name key) ⟨"", 0⟩ nsec i
    hle hbelow hstop

/-- C7 (amended): on a strictly sorted denial index, GetNSEC returns
("","") on the empty index; on an exact hit at a non-last position i,
(list[i], list[i+1]+"."); on an exact hit at the last position,
(list[i]+".", "") — the first component carries the trailing dot; with no
exact hit and the key before position 0, ("", list[0]+"."); with no exact
hit strictly between positions i-1 and i, (list[i-1]+".", list[i]+".");
and with no exact hit and the key after every entry the Go code indexes
r.nsec[len(r.nsec)] out of range and panics (modelled `none`). -/
theorem C7_getNSEC_cases (nsec : List denialReference) (key : String)
    (hs : nsecSorted nsec) :
    (nsec = [] → getNSEC nsec key = some ("", "")) ∧
    (∀ i, i < nsec.length → (nsec.getD i ⟨"", 0⟩).name = key →
      (i + 1 = nsec.length → getNSEC nsec key = some (key ++ ".", "")) ∧
      (i + 1 < nsec.length →
        getNSEC nsec key = some (key, (nsec.getD (i + 1) ⟨"", 0⟩).name ++ "."))) ∧
    ((∀ d ∈ nsec, d.name ≠ key) →
      (0 < nsec.length → strLt key (nsec.getD 0 ⟨"", 0⟩).name = true →
        getNSEC nsec key = some ("", (nsec.getD 0 ⟨"", 0⟩).name ++ ".")) ∧
      (∀ i, 0 < i → i < nsec.length →
        strLt (nsec.getD (i - 1) ⟨"", 0⟩).name key = true →
        strLt key (nsec.getD i ⟨"", 0⟩).name = true →
        getNSEC nsec key = some ((nsec.getD (i - 1) ⟨"", 0⟩).name ++ ".",
          (nsec.getD i ⟨"", 0⟩).name ++ ".")) ∧
      (nsec ≠ [] → (∀ d ∈ nsec, strLt d.name key = true) →
        getNSEC nsec key = none)) := by
  refine ⟨fun hnil => by simp [hnil, getNSEC], fun i hi hkey => ?_, fun hno => ?_⟩
  · have hne : ¬ nsec.length = 0 := by omega
    have hlb : lowerBound nsec key = i := by
      refine lowerBound_eq nsec key i (Nat.le_of_lt hi) (fun j hj => ?_) ?_
      · rw [← hkey]
        exact sorted_getD_lt hs hj hi
      · right
        rw [hkey]
        exact strLt_irrefl key
    constructor
    · intro hlast
      simp only [getNSEC, hlb]
      rw [if_neg hne, if_pos ⟨hi, hkey⟩, if_pos hlast, hkey]
    · intro hi2
      have hnotlast : ¬ i + 1 = nsec.length := by omega
      simp only [getNSEC, hlb]
      rw [if_neg hne, if_pos ⟨hi, hkey⟩, if_neg hnotlast, hkey]
  · have hmemne : ∀ j, j < nsec.length → (nsec.getD j ⟨"", 0⟩).name ≠ key := by
      intro j hj
      rw [List.getD_eq_getElem _ _ hj]
      exact hno _ (nsec.getElem_mem hj)
    refine ⟨fun h0 hkey0 => ?_, fun i h0i hi hlt1 hlt2 => ?_, fun hne0 hall => ?_⟩
    · have hne : ¬ nsec.length = 0 := by omega
      have hlb : lowerBound nsec key = 0 := by
        refine lowerBound_eq nsec key 0 (Nat.zero_le _) (fun j hj => by omega) ?_
        right
        exact strLt_asymm hkey0
      simp only [getNSEC, hlb]
      rw [if_neg hne, if_neg (fun hc => hmemne 0 h0 hc.2)]
      simp
    · have hne : ¬ nsec.length = 0 := by omega
      have hlb : lowerBound nsec key = i := by
        refine lowerBound_eq nsec key i (Nat.le_of_lt hi) (fun j hj => ?_) ?_
        · by_cases hji : j = i - 1
          · rw [hji]; exact hlt1
          · have hjlt : j < i - 1 := by omega
            exact strLt_trans (sorted_getD_lt hs hjlt (by omega)) hlt1
        · right
          exact strLt_asymm hlt2
      have hi0 : ¬ i = 0 := by omega
      simp only [getNSEC, hlb]
      rw [if_neg hne, if_neg (fun hc => hmemne i hi hc.2), if_neg hi0, if_pos hi]
    · have hne : ¬ nsec.length = 0 := by
        intro hc
        exact hne0 (List.length_eq_zero.mp hc)
      have hlb : lowerBound nsec key = nsec.length := by
        refine lowerBound_eq nsec key nsec.length (le_refl _) (fun j hj => ?_) (Or.inl rfl)
        rw [List.getD_eq_getElem _ _ hj]
        exact hall _ (nsec.getElem_mem hj)
      have hnlt : ¬ nsec.length < nsec.length := by omega
      simp only [getNSEC, hlb]
      rw [if_neg hne, if_neg (fun hc => hnlt hc.1), if_neg hne, if_neg hnlt]

/-- C7 counterexample: on the singleton sorted index ["a"] with key "a"
— an exact hit at the last position — GetNSEC returns ("a.", ""), with a
trailing dot on the first component, not ("a", "") as the claim's
exact-hit case states. -/
theorem C7_getNSEC_counterexample :
    getNSEC [⟨"a", 1⟩] "a" = some ("a.", "") ∧
    ¬ getNSEC [⟨"a", 1⟩] "a" = some ("a", "") :=
  ⟨by decide, by decide⟩

/-- Concrete exercise of C7_getNSEC_cases on the sorted index
["a", "c"]: an exact non-last hit, a between-entries miss, and the
after-all-entries panic case. -/
theorem C7_getNSEC_cases_witness :
    getNSEC [⟨"a", 1⟩, ⟨"c", 1⟩] "a" = some ("a", "c.") ∧
    getNSEC [⟨"a", 1⟩, ⟨"c", 1⟩] "b" = some ("a.", "c.") ∧
    getNSEC [⟨"a", 1⟩, ⟨"c", 1⟩] "d" = none := by
  have hs : nsecSorted [⟨"a", 1⟩, ⟨"c", 1⟩] := by
    refine List.Pairwise.cons ?_ (List.pairwise_singleton _ _)
    intro b hb
    rcases List.mem_singleton.mp hb with rfl
    decide
  have hcase := C7_getNSEC_cases [⟨"a", 1⟩, ⟨"c", 1⟩] "a" hs
  have hcase2 := C7_getNSEC_cases [⟨"a", 1⟩, ⟨"c", 1⟩] "b" hs
  have hcase3 := C7_getNSEC_cases [⟨"a", 1⟩, ⟨"c", 1⟩] "d" hs
  refine ⟨?_, ?_, ?_⟩
  · have := (hcase.2.1 0 (by decide) (by decide)).2 (by decide)
    simpa using this
  · have := (hcase2.2.2 (by decide)).2.1 1 (by decide) (by decide) (by decide) (by decide)
    simpa using this
  · exact (hcase3.2.2 (by decide)).2.2 (by decide) (by decide)


/-- C8 (conclusion equations): given a successful primary lookup S and a
successful second lookup S2, when `|S2| <= |S|` the answer section is
exactly the priority-10 primary records (no priority-20 record and the
fallback weight division is never evaluated); when `|S2| > |S|` it is the
primary records followed by one priority-20 record of weight
`100 / (|S2| - |S|)` for every member of S2 whose lower-cased region
differs from the requested one. -/
theorem C8_cross_region_fallback (r : DefaultRegistry) (domain qname : String)
    (now : Int) (S S2 : List Service)
    (h1 : (r.Get (trimSuffix qname (domain ++ ".")) now).1 = some S)
    (happ : fallbackApplies (splitDomainName (trimSuffix qname (domain ++ "."))))
    (h2 : ((r.Get (trimSuffix qname (domain ++ ".")) now).2.Get
        (joinDot ((splitDomainName (trimSuffix qname (domain ++ "."))).set
          (fallbackPos (splitDomainName (trimSuffix qname (domain ++ ".")))) "any"))
        now).1 = some S2) :
    (S2.length ≤ S.length →
      (ServeDNS_SRV r domain qname now).1.answer =
        S.map (mkSRV qname 10 (if 0 < S.length then 100 / S.length else 0)) ∧
      ∀ a ∈ (ServeDNS_SRV r domain qname now).1.answer, a.priority = 10) ∧
    (S.length < S2.length →
      (ServeDNS_SRV r domain qname now).1.answer =
        S.map (mkSRV qname 10 (if 0 < S.length then 100 / S.length else 0)) ++
        (S2.filter (fun serv => strToLower serv.region ≠
            (splitDomainName (trimSuffix qname (domain ++ "."))).getD
              (fallbackPos (splitDomainName (trimSuffix qname (domain ++ ".")))) "")).map
          (mkSRV qname 20 (100 / (S2.length - S.length))) ∧
      ∀ a ∈ (ServeDNS_SRV r domain qname now).1.answer,
        a.priority = 20 → a.weight = 100 / (S2.length - S.length)) := by
  unfold ServeDNS_SRV
  dsimp only
  rcases hp1 : r.Get (trimSuffix qname (domain ++ ".")) now with ⟨res1, r1⟩
  rw [hp1] at h1 h2
  dsimp only at h1 h2 ⊢
  subst h1
  dsimp only
  rw [if_pos happ]
  rcases hp2 : r1.Get (joinDot ((splitDomainName (trimSuffix qname (domain ++ "."))).set
      (fallbackPos (splitDomainName (trimSuffix qname (domain ++ ".")))) "any")) now
    with ⟨res2, r2⟩
  rw [hp2] at h2
  dsimp only at h2 ⊢
  subst h2
  dsimp only
  constructor
  · intro hle
    rw [if_pos hle]
    refine ⟨rfl, fun a ha => ?_⟩
    rcases List.mem_map.mp ha with ⟨s, _, rfl⟩
    rfl
  · intro hlt
    rw [if_neg (by omega)]
    refine ⟨rfl, fun a ha hp => ?_⟩
    rcases List.mem_append.mp ha with hcase | hcase
    · rcases List.mem_map.mp hcase with ⟨s, _, rfl⟩
      simp [mkSRV] at hp
    · rcases List.mem_map.mp hcase with ⟨s, _, rfl⟩
      rfl


/-- Concrete exercise of C8_cross_region_fallback: one service in region
east, two in the literal region "any"; the query for east gets one
priority-10 answer with weight 100 and two priority-20 fallback answers
with weight 100/(2-1) = 100. -/
theorem C8_cross_region_fallback_witness :
    ((((New.Add svcA).2.Add ⟨"u3", "web", "1-0-0", "prod", "any", "h3", 82, 10, 1000, false⟩).2.Add
        ⟨"u4", "web", "1-0-0", "prod", "any", "h4", 83, 10, 1000, false⟩).2.Get
      (trimSuffix "east.1-0-0.web.prod.skydns.local." ("skydns.local" ++ ".")) 0).1 =
      some [{ svcA with ttl := 1000 }] ∧
    (ServeDNS_SRV (((New.Add svcA).2.Add
        ⟨"u3", "web", "1-0-0", "prod", "any", "h3", 82, 10, 1000, false⟩).2.Add
        ⟨"u4", "web", "1-0-0", "prod", "any", "h4", 83, 10, 1000, false⟩).2
      "skydns.local" "east.1-0-0.web.prod.skydns.local." 0).1.answer =
      [mkSRV "east.1-0-0.web.prod.skydns.local." 10 100 { svcA with ttl := 1000 },
       mkSRV "east.1-0-0.web.prod.skydns.local." 20 100
         ⟨"u3", "web", "1-0-0", "prod", "any", "h3", 82, 1000, 1000, false⟩,
       mkSRV "east.1-0-0.web.prod.skydns.local." 20 100
         ⟨"u4", "web", "1-0-0", "prod", "any", "h4", 83, 1000, 1000, false⟩] := by
  constructor
  · decide
  · have h := (C8_cross_region_fallback (((New.Add svcA).2.Add
        ⟨"u3", "web", "1-0-0", "prod", "any", "h3", 82, 10, 1000, false⟩).2.Add
        ⟨"u4", "web", "1-0-0", "prod", "any", "h4", 83, 10, 1000, false⟩).2
      "skydns.local" "east.1-0-0.web.prod.skydns.local." 0
      [{ svcA with ttl := 1000 }]
      [⟨"u3", "web", "1-0-0", "prod", "any", "h3", 82, 1000, 1000, false⟩,
       ⟨"u4", "web", "1-0-0", "prod", "any", "h4", 83, 1000, 1000, false⟩]
      (by decide) (by decide) (by decide)).2 (by decide)
    rw [h.1]
    decide


/-- C9 (amended): the SRV/ANY handler answers SERVFAIL on every registry
lookup error — and NotFound is the only error the registry produces — so
a NotFound primary lookup yields SERVFAIL with an empty answer section
rather than a NOERROR empty answer; a NotFound second (fallback) lookup
also yields SERVFAIL, keeping the primary answers. -/
theorem C9_registry_error_servfail (r : DefaultRegistry) (domain qname : String)
    (now : Int) :
    ((r.Get (trimSuffix qname (domain ++ ".")) now).1 = none →
      (ServeDNS_SRV r domain qname now).1 = ⟨[], .servFail⟩) ∧
    (∀ S, (r.Get (trimSuffix qname (domain ++ ".")) now).1 = some S →
      fallbackApplies (splitDomainName (trimSuffix qname (domain ++ "."))) →
      ((r.Get (trimSuffix qname (domain ++ ".")) now).2.Get
        (joinDot ((splitDomainName (trimSuffix qname (domain ++ "."))).set
          (fallbackPos (splitDomainName (trimSuffix qname (domain ++ ".")))) "any"))
        now).1 = none →
      (ServeDNS_SRV r domain qname now).1 =
        ⟨S.map (mkSRV qname 10 (if 0 < S.length then 100 / S.length else 0)),
         .servFail⟩) := by
  constructor
  · intro h1
    unfold ServeDNS_SRV
    dsimp only
    rcases hp1 : r.Get (trimSuffix qname (domain ++ ".")) now with ⟨res1, r1⟩
    rw [hp1] at h1
    dsimp only at h1 ⊢
    subst h1
    rfl
  · intro S h1 happ h2
    unfold ServeDNS_SRV
    dsimp only
    rcases hp1 : r.Get (trimSuffix qname (domain ++ ".")) now with ⟨res1, r1⟩
    rw [hp1] at h1 h2
    dsimp only at h1 h2 ⊢
    subst h1
    dsimp only
    rw [if_pos happ]
    rcases hp2 : r1.Get (joinDot ((splitDomainName (trimSuffix qname (domain ++ "."))).set
        (fallbackPos (splitDomainName (trimSuffix qname (domain ++ ".")))) "any")) now
      with ⟨res2, r2⟩
    rw [hp2] at h2
    dsimp only at h2 ⊢
    subst h2
    rfl

/-- C9 counterexample: on the empty registry an SRV question for an
unknown name makes the registry lookup fail with NotFound, and the reply
carries rcode SERVFAIL (an empty answer with a failure code), not the
NOERROR empty answer the claim requires for NotFound. -/
theorem C9_notfound_servfail_counterexample :
    (New.Get (trimSuffix "foo.skydns.local." ("skydns.local" ++ ".")) 0).1 = none ∧
    (ServeDNS_SRV New "skydns.local" "foo.skydns.local." 0).1 =
      ⟨[], .servFail⟩ ∧
    ¬ (ServeDNS_SRV New "skydns.local" "foo.skydns.local." 0).1.rcode = Rcode.noError :=
  ⟨by decide, by decide, by decide⟩

/-- Concrete exercise of C9_registry_error_servfail at the same input. -/
theorem C9_registry_error_servfail_witness :
    (New.Get (trimSuffix "foo.skydns.local." ("skydns.local" ++ ".")) 0).1 = none ∧
    (ServeDNS_SRV New "skydns.local" "foo.skydns.local." 0).1 = ⟨[], .servFail⟩ :=
  ⟨by decide,
   (C9_registry_error_servfail New "skydns.local" "foo.skydns.local." 0).1 (by decide)⟩

/-- The two services of the repository registry test (TestGet), given a
concrete expiration so the TTL filter passes. -/
def tsvc1 : Service :=
  ⟨"123", "TestService", "1.0.0", "Production", "Test", "localhost", 9000, 4, 100, false⟩

def tsvc2 : Service :=
  ⟨"321", "TestService", "1.0.1", "Production", "Test", "localhost", 9001, 4, 100, false⟩

/-- C1, evaluated at the repository test input: node.get in the skydns1
registry treats only `*` as a wildcard, so the query of the registry test
using the documented aliases `any` and `all` returns NotFound, while the
identical query with `*` in those positions returns both services. -/
theorem C1_any_all_not_wildcards :
    (((New.Add tsvc1).2.Add tsvc2).2.Get
        "any.localhost.test.all.testservice.production" 0).1 = none ∧
    (((New.Add tsvc1).2.Add tsvc2).2.Get
        "*.localhost.test.*.testservice.production" 0).1 =
      some [{ tsvc1 with ttl := 100 }, { tsvc2 with ttl := 100 }] :=
  ⟨by decide, by decide⟩


/-! ### The denial index as a reference-counted multiset -/

/-- The reference count stored for a name (0 when absent). -/
def refOf : List denialReference → String → Int
  | [], _ => 0
  | d :: t, name => if d.name = name then d.reference else refOf t name

theorem lowerBound_cons (d : denialReference) (t : List denialReference)
    (key : String) :
    lowerBound (d :: t) key =
      if strLt d.name key = true then lowerBound t key + 1 else 0 := by
  by_cases h : strLt d.name key = true
  · simp [lowerBound, List.takeWhile, h]
  · have hf : strLt d.name key = false := by
      cases hx : strLt d.name key with
      | true => exact absurd hx h
      | false => rfl
    simp [lowerBound, List.takeWhile, hf]

theorem addNSEC_cons (d : denialReference) (t : List denialReference)
    (key : String) :
    addNSEC (d :: t) key =
      if strLt d.name key = true then d :: addNSEC t key
      else if d.name = key then ⟨key, d.reference + 1⟩ :: t
      else ⟨key, 1⟩ :: d :: t := by
  by_cases hlt : strLt d.name key = true
  · rw [if_pos hlt]
    simp only [addNSEC, lowerBound_cons, hlt, if_pos, List.getD_cons_succ,
      List.length_cons, List.set_cons_succ, List.insertIdx_succ_cons,
      Nat.add_lt_add_iff_right]
    by_cases hc : lowerBound t key < t.length ∧
        (t.getD (lowerBound t key) ⟨"", 0⟩).name = key
    · rw [if_pos hc, if_pos hc]
    · rw [if_neg hc, if_neg hc]
  · rw [if_neg hlt]
    have hf : strLt d.name key = false := by
      cases hx : strLt d.name key with
      | true => exact absurd hx hlt
      | false => rfl
    simp only [addNSEC, lowerBound_cons, hf, Bool.false_eq_true, if_false]
    by_cases hdk : d.name = key
    · rw [if_pos (show 0 < (d :: t).length ∧
          ((d :: t).getD 0 ⟨"", 0⟩).name = key by simp [hdk]), if_pos hdk]
      simp
    · rw [if_neg (show ¬(0 < (d :: t).length ∧
          ((d :: t).getD 0 ⟨"", 0⟩).name = key) by simp [hdk]), if_neg hdk]
      simp

theorem removeNSEC_cons (d : denialReference) (t : List denialReference)
    (key : String) :
    removeNSEC (d :: t) key =
      if strLt d.name key = true then d :: removeNSEC t key
      else if d.name = key then
        (if d.reference - 1 = 0 then t else ⟨key, d.reference - 1⟩ :: t)
      else d :: t := by
  by_cases hlt : strLt d.name key = true
  · rw [if_pos hlt]
    simp only [removeNSEC, lowerBound_cons, hlt, if_pos, List.getD_cons_succ,
      List.length_cons, List.set_cons_succ, List.eraseIdx_cons_succ,
      Nat.add_lt_add_iff_right]
    by_cases hc : lowerBound t key < t.length ∧
        (t.getD (lowerBound t key) ⟨"", 0⟩).name = key
    · rw [if_pos hc, if_pos hc]
      by_cases hz : (t.getD (lowerBound t key) ⟨"", 0⟩).reference - 1 = 0
      · rw [if_pos hz, if_pos hz]
      · rw [if_neg hz, if_neg hz]
    · rw [if_neg hc, if_neg hc]
  · rw [if_neg hlt]
    have hf : strLt d.name key = false := by
      cases hx : strLt d.name key with
      | true => exact absurd hx hlt
      | false => rfl
    simp only [removeNSEC, lowerBound_cons, hf, Bool.false_eq_true, if_false]
    by_cases hdk : d.name = key
    · rw [if_pos (show 0 < (d :: t).length ∧
          ((d :: t).getD 0 ⟨"", 0⟩).name = key by simp [hdk]), if_pos hdk]
      by_cases hz : d.reference - 1 = 0
      · rw [if_pos (show ((d :: t).getD 0 ⟨"", 0⟩).reference - 1 = 0 by
            simpa using hz), if_pos hz]
        simp
      · rw [if_neg (show ¬(((d :: t).getD 0 ⟨"", 0⟩).reference - 1 = 0) by
            simpa using hz), if_neg hz]
        simp [hdk]
    · rw [if_neg (show ¬(0 < (d :: t).length ∧
          ((d :: t).getD 0 ⟨"", 0⟩).name = key) by simp [hdk]), if_neg hdk]


/-- Characters with equal code points are equal. -/
theorem char_toNat_inj {a b : Char} (h : a.toNat = b.toNat) : a = b :=
  Char.ext (UInt32.ext h)

/-- Totality of the Go string order on character lists. -/
theorem charsLt_total :
    ∀ (a b : List Char), charsLt a b = false → charsLt b a = false → a = b := by
  intro a
  induction a with
  | nil =>
    intro b hab _
    cases b with
    | nil => rfl
    | cons c cs => simp [charsLt] at hab
  | cons x xs ih =>
    intro b hab hba
    cases b with
    | nil => simp [charsLt] at hba
    | cons y ys =>
      by_cases hxy : x.toNat = y.toNat
      · have hx : x = y := char_toNat_inj hxy
        subst hx
        simp only [charsLt, if_pos rfl] at hab hba
        rw [ih ys hab hba]
      · have hyx : ¬ y.toNat = x.toNat := fun h => hxy h.symm
        simp only [charsLt, if_neg hxy] at hab
        simp only [charsLt, if_neg hyx] at hba
        have h1 : ¬ x.toNat < y.toNat := by simpa using hab
        have h2 : ¬ y.toNat < x.toNat := by simpa using hba
        exact absurd (by omega : x.toNat = y.toNat) hxy

theorem strLt_total {a b : String} (h1 : strLt a b = false)
    (h2 : strLt b a = false) : a = b := by
  cases a with
  | mk ad =>
    cases b with
    | mk bd => exact congrArg String.mk (charsLt_total ad bd h1 h2)

theorem strLt_of_not {a b : String} (h : strLt a b = false) (hne : a ≠ b) :
    strLt b a = true := by
  cases hba : strLt b a with
  | true => rfl
  | false => exact absurd (strLt_total h hba) hne

theorem addNSEC_nil (key : String) : addNSEC [] key = [⟨key, 1⟩] := rfl

theorem removeNSEC_nil (key : String) : removeNSEC [] key = [] := rfl

theorem refOf_eq_zero {t : List denialReference} {nm : String}
    (h : ∀ e ∈ t, e.name ≠ nm) : refOf t nm = 0 := by
  induction t with
  | nil => rfl
  | cons d t ih =>
    simp only [refOf, if_neg (h d (by simp))]
    exact ih (fun e he => h e (by simp [he]))

theorem refOf_nonneg {t : List denialReference} {nm : String}
    (hpos : ∀ e ∈ t, 1 ≤ e.reference) : 0 ≤ refOf t nm := by
  induction t with
  | nil => simp [refOf]
  | cons d t ih =>
    by_cases hd : d.name = nm
    · simp only [refOf, if_pos hd]
      exact le_trans (by omega) (hpos d (by simp))
    · simp only [refOf, if_neg hd]
      exact ih (fun e he => hpos e (by simp [he]))

/-- With positive counts, a positive stored count marks exactly the
present names. -/
theorem refOf_pos_iff {t : List denialReference} {nm : String}
    (hpos : ∀ e ∈ t, 1 ≤ e.reference) :
    1 ≤ refOf t nm ↔ ∃ e ∈ t, e.name = nm := by
  induction t with
  | nil => simp [refOf]
  | cons d t ih =>
    by_cases hd : d.name = nm
    · simp only [refOf, if_pos hd]
      constructor
      · intro _
        exact ⟨d, by simp, hd⟩
      · intro _
        exact hpos d (by simp)
    · simp only [refOf, if_neg hd]
      rw [ih (fun e he => hpos e (by simp [he]))]
      constructor
      · rintro ⟨e, he, henm⟩
        exact ⟨e, by simp [he], henm⟩
      · rintro ⟨e, he, henm⟩
        rcases List.mem_cons.mp he with h | h
        · subst h
          exact absurd henm hd
        · exact ⟨e, h, henm⟩


/-- Every name in the index after addNSEC is the inserted key or an
existing name. -/
theorem addNSEC_names {t : List denialReference} {key : String} :
    ∀ e ∈ addNSEC t key, e.name = key ∨ ∃ e2 ∈ t, e.name = e2.name := by
  induction t with
  | nil =>
    intro e he
    rw [addNSEC_nil] at he
    rcases List.mem_singleton.mp he with h
    subst h
    exact Or.inl rfl
  | cons d t ih =>
    intro e he
    rw [addNSEC_cons] at he
    by_cases hlt : strLt d.name key = true
    · rw [if_pos hlt] at he
      rcases List.mem_cons.mp he with h | h
      · exact Or.inr ⟨d, by simp, by rw [h]⟩
      · rcases ih e h with h2 | ⟨e2, he2, h3⟩
        · exact Or.inl h2
        · exact Or.inr ⟨e2, by simp [he2], h3⟩
    · rw [if_neg hlt] at he
      by_cases hdk : d.name = key
      · rw [if_pos hdk] at he
        rcases List.mem_cons.mp he with h | h
        · subst h
          exact Or.inl rfl
        · exact Or.inr ⟨e, by simp [h], rfl⟩
      · rw [if_neg hdk] at he
        rcases List.mem_cons.mp he with h | h
        · subst h
          exact Or.inl rfl
        · rcases List.mem_cons.mp h with h2 | h2
          · exact Or.inr ⟨d, by simp, by rw [h2]⟩
          · exact Or.inr ⟨e, by simp [h2], rfl⟩

/-- addNSEC keeps the denial index strictly sorted. -/
theorem addNSEC_sorted {t : List denialReference} (key : String)
    (hs : nsecSorted t) : nsecSorted (addNSEC t key) := by
  induction t with
  | nil =>
    rw [addNSEC_nil]
    exact List.pairwise_singleton _ _
  | cons d t ih =>
    have hs' := List.pairwise_cons.mp hs
    rw [addNSEC_cons]
    by_cases hlt : strLt d.name key = true
    · rw [if_pos hlt]
      refine List.Pairwise.cons ?_ (ih hs'.2)
      intro e he
      rcases addNSEC_names e he with h | ⟨e2, he2, h2⟩
      · rw [h]
        exact hlt
      · rw [h2]
        exact hs'.1 e2 he2
    · rw [if_neg hlt]
      have hflt : strLt d.name key = false := by
        cases hx : strLt d.name key with
        | true => exact absurd hx hlt
        | false => rfl
      by_cases hdk : d.name = key
      · rw [if_pos hdk]
        refine List.Pairwise.cons ?_ hs'.2
        intro e he
        show strLt key e.name = true
        rw [← hdk]
        exact hs'.1 e he
      · rw [if_neg hdk]
        have hkd : strLt key d.name = true := strLt_of_not hflt hdk
        refine List.Pairwise.cons ?_ (List.Pairwise.cons hs'.1 hs'.2)
        intro e he
        show strLt key e.name = true
        rcases List.mem_cons.mp he with h | h
        · subst h
          exact hkd
        · exact strLt_trans hkd (hs'.1 e h)

/-- addNSEC keeps every reference count positive. -/
theorem addNSEC_pos {t : List denialReference} {key : String}
    (hpos : ∀ e ∈ t, 1 ≤ e.reference) :
    ∀ e ∈ addNSEC t key, 1 ≤ e.reference := by
  induction t with
  | nil =>
    rw [addNSEC_nil]
    intro e he
    rcases List.mem_singleton.mp he with h
    subst h
    exact le_refl _
  | cons d t ih =>
    intro e he
    rw [addNSEC_cons] at he
    by_cases hlt : strLt d.name key = true
    · rw [if_pos hlt] at he
      rcases List.mem_cons.mp he with h | h
      · rw [h]
        exact hpos d (by simp)
      · exact ih (fun x hx => hpos x (by simp [hx])) e h
    · rw [if_neg hlt] at he
      by_cases hdk : d.name = key
      · rw [if_pos hdk] at he
        rcases List.mem_cons.mp he with h | h
        · subst h
          have : 1 ≤ d.reference := hpos d (by simp)
          show (1 : Int) ≤ d.reference + 1
          omega
        · exact hpos e (by simp [h])
      · rw [if_neg hdk] at he
        rcases List.mem_cons.mp he with h | h
        · subst h
          exact le_refl _
        · exact hpos e h

/-- addNSEC adds exactly one to the inserted key count and nothing
elsewhere. -/
theorem addNSEC_refOf {t : List denialReference} (key : String)
    (hs : nsecSorted t) (nm : String) :
    refOf (addNSEC t key) nm = refOf t nm + (if key = nm then 1 else 0) := by
  induction t with
  | nil =>
    rw [addNSEC_nil]
    by_cases h : key = nm <;> simp [refOf, h]
  | cons d t ih =>
    have hs' := List.pairwise_cons.mp hs
    rw [addNSEC_cons]
    by_cases hlt : strLt d.name key = true
    · rw [if_pos hlt]
      by_cases hdn : d.name = nm
      · have hknm : ¬ key = nm := fun h2 => strLt_ne hlt (hdn.trans h2.symm)
        simp only [refOf, if_pos hdn, if_neg hknm]
        omega
      · simp only [refOf, if_neg hdn]
        exact ih hs'.2
    · rw [if_neg hlt]
      have hflt : strLt d.name key = false := by
        cases hx : strLt d.name key with
        | true => exact absurd hx hlt
        | false => rfl
      by_cases hdk : d.name = key
      · rw [if_pos hdk]
        by_cases hkn : key = nm
        · simp [refOf, hkn, hdk.trans hkn]
        · have hdn : ¬ d.name = nm := fun h2 => hkn (hdk.symm.trans h2)
          simp [refOf, hkn, hdn]
      · rw [if_neg hdk]
        have hkd : strLt key d.name = true := strLt_of_not hflt hdk
        have hzero : refOf t key = 0 := by
          apply refOf_eq_zero
          intro e he h2
          exact strLt_ne (strLt_trans hkd (hs'.1 e he)) h2.symm
        by_cases hkn : key = nm
        · have hdn : ¬ d.name = nm := fun h2 => hdk (h2.trans hkn.symm)
          subst hkn
          simp [refOf, hdn, hzero]
        · have hne : ¬ (⟨key, 1⟩ : denialReference).name = nm := by simpa using hkn
          simp only [refOf, if_neg hne, if_neg hkn]
          omega


/-- removeNSEC introduces no new names. -/
theorem removeNSEC_names {t : List denialReference} {key : String} :
    ∀ e ∈ removeNSEC t key, ∃ e2 ∈ t, e.name = e2.name := by
  induction t with
  | nil =>
    intro e he
    rw [removeNSEC_nil] at he
    cases he
  | cons d t ih =>
    intro e he
    rw [removeNSEC_cons] at he
    by_cases hlt : strLt d.name key = true
    · rw [if_pos hlt] at he
      rcases List.mem_cons.mp he with h | h
      · exact ⟨d, by simp, by rw [h]⟩
      · rcases ih e h with ⟨e2, he2, h3⟩
        exact ⟨e2, by simp [he2], h3⟩
    · rw [if_neg hlt] at he
      by_cases hdk : d.name = key
      · rw [if_pos hdk] at he
        by_cases hz : d.reference - 1 = 0
        · rw [if_pos hz] at he
          exact ⟨e, by simp [he], rfl⟩
        · rw [if_neg hz] at he
          rcases List.mem_cons.mp he with h | h
          · refine ⟨d, by simp, ?_⟩
            rw [h]
            exact hdk.symm
          · exact ⟨e, by simp [h], rfl⟩
      · rw [if_neg hdk] at he
        exact ⟨e, he, rfl⟩

/-- removeNSEC keeps the denial index strictly sorted. -/
theorem removeNSEC_sorted {t : List denialReference} (key : String)
    (hs : nsecSorted t) : nsecSorted (removeNSEC t key) := by
  induction t with
  | nil =>
    rw [removeNSEC_nil]
    exact List.Pairwise.nil
  | cons d t ih =>
    have hs' := List.pairwise_cons.mp hs
    rw [removeNSEC_cons]
    by_cases hlt : strLt d.name key = true
    · rw [if_pos hlt]
      refine List.Pairwise.cons ?_ (ih hs'.2)
      intro e he
      rcases removeNSEC_names e he with ⟨e2, he2, h3⟩
      rw [h3]
      exact hs'.1 e2 he2
    · rw [if_neg hlt]
      by_cases hdk : d.name = key
      · rw [if_pos hdk]
        by_cases hz : d.reference - 1 = 0
        · rw [if_pos hz]
          exact hs'.2
        · rw [if_neg hz]
          refine List.Pairwise.cons ?_ hs'.2
          intro e he
          show strLt key e.name = true
          rw [← hdk]
          exact hs'.1 e he
      · rw [if_neg hdk]
        exact hs

/-- removeNSEC keeps every reference count positive. -/
theorem removeNSEC_pos {t : List denialReference} {key : String}
    (hpos : ∀ e ∈ t, 1 ≤ e.reference) :
    ∀ e ∈ removeNSEC t key, 1 ≤ e.reference := by
  induction t with
  | nil =>
    rw [removeNSEC_nil]
    intro e he
    cases he
  | cons d t ih =>
    intro e he
    rw [removeNSEC_cons] at he
    by_cases hlt : strLt d.name key = true
    · rw [if_pos hlt] at he
      rcases List.mem_cons.mp he with h | h
      · rw [h]
        exact hpos d (by simp)
      · exact ih (fun x hx => hpos x (by simp [hx])) e h
    · rw [if_neg hlt] at he
      by_cases hdk : d.name = key
      · rw [if_pos hdk] at he
        by_cases hz : d.reference - 1 = 0
        · rw [if_pos hz] at he
          exact hpos e (by simp [he])
        · rw [if_neg hz] at he
          rcases List.mem_cons.mp he with h | h
          · have hd1 : 1 ≤ d.reference := hpos d (by simp)
            rw [h]
            show (1 : Int) ≤ d.reference - 1
            omega
          · exact hpos e (by simp [h])
      · rw [if_neg hdk] at he
        exact hpos e he

/-- removeNSEC with a present key subtracts exactly one from that key
count and nothing elsewhere. -/
theorem removeNSEC_refOf {t : List denialReference} (key : String)
    (hs : nsecSorted t) (h1 : 1 ≤ refOf t key) (nm : String) :
    refOf (removeNSEC t key) nm = refOf t nm - (if key = nm then 1 else 0) := by
  induction t with
  | nil =>
    simp only [refOf] at h1
    omega
  | cons d t ih =>
    have hs' := List.pairwise_cons.mp hs
    rw [removeNSEC_cons]
    by_cases hlt : strLt d.name key = true
    · rw [if_pos hlt]
      have hdkne : ¬ d.name = key := strLt_ne hlt
      have h1' : 1 ≤ refOf t key := by
        simpa only [refOf, if_neg hdkne] using h1
      by_cases hdn : d.name = nm
      · have hknm : ¬ key = nm := fun h2 => hdkne (hdn.trans h2.symm)
        simp only [refOf, if_pos hdn, if_neg hknm]
        omega
      · simp only [refOf, if_neg hdn]
        exact ih hs'.2 h1'
    · rw [if_neg hlt]
      have hflt : strLt d.name key = false := by
        cases hx : strLt d.name key with
        | true => exact absurd hx hlt
        | false => rfl
      by_cases hdk : d.name = key
      · rw [if_pos hdk]
        have hzero : refOf t key = 0 := by
          apply refOf_eq_zero
          intro e he h2
          have := hs'.1 e he
          rw [hdk] at this
          exact strLt_ne this h2.symm
        by_cases hz : d.reference - 1 = 0
        · rw [if_pos hz]
          by_cases hkn : key = nm
          · subst hkn
            have hgoal : refOf (d :: t) key = d.reference := by
              simp only [refOf, if_pos hdk]
            have hone : (if key = key then (1 : Int) else 0) = 1 := if_pos rfl
            rw [hgoal, hzero, hone]
            omega
          · have hdn : ¬ d.name = nm := fun h2 => hkn (hdk.symm.trans h2)
            simp only [refOf, if_neg hdn, if_neg hkn]
            omega
        · rw [if_neg hz]
          by_cases hkn : key = nm
          · have hhd : (⟨key, d.reference - 1⟩ : denialReference).name = nm := hkn
            simp only [refOf, if_pos hhd, if_pos (hdk.trans hkn), if_pos hkn]
          · have hhd : ¬ (⟨key, d.reference - 1⟩ : denialReference).name = nm := hkn
            have hdn : ¬ d.name = nm := fun h2 => hkn (hdk.symm.trans h2)
            simp only [refOf, if_neg hhd, if_neg hdn, if_neg hkn]
            omega
      · rw [if_neg hdk]
        have hkd : strLt key d.name = true := strLt_of_not hflt hdk
        have hzero : refOf t key = 0 := by
          apply refOf_eq_zero
          intro e he h2
          exact strLt_ne (strLt_trans hkd (hs'.1 e he)) h2.symm
        rw [show refOf (d :: t) key = refOf t key from by
          simp only [refOf, if_neg hdk], hzero] at h1
        omega


/-- The contribution of one service record to the count of a denial-index
name: how many of its four owner names (region.version.name.environment,
version.name.environment, name.environment, environment) equal it. -/
def ownerRef (s : Service) (nm : String) : Int :=
  (if s.region ++ "." ++ s.version ++ "." ++ s.name ++ "." ++ s.environment = nm then 1 else 0) +
  (if s.version ++ "." ++ s.name ++ "." ++ s.environment = nm then 1 else 0) +
  (if s.name ++ "." ++ s.environment = nm then 1 else 0) +
  (if s.environment = nm then 1 else 0)

/-- The owner-name multiplicity of a name over all service cells of the
id map, merged by equality with the counts summed. -/
def ownerCount (h : Heap) (nm : String) : Int :=
  h.foldr (fun p acc => ownerRef p.2 nm + acc) 0

theorem indicator_nonneg (c : Prop) [Decidable c] :
    (0 : Int) ≤ if c then 1 else 0 := by
  by_cases h : c <;> simp [h]

theorem ownerRef_nonneg (s : Service) (nm : String) : 0 ≤ ownerRef s nm := by
  simp only [ownerRef]
  have h1 := indicator_nonneg (s.region ++ "." ++ s.version ++ "." ++ s.name ++ "." ++ s.environment = nm)
  have h2 := indicator_nonneg (s.version ++ "." ++ s.name ++ "." ++ s.environment = nm)
  have h3 := indicator_nonneg (s.name ++ "." ++ s.environment = nm)
  have h4 := indicator_nonneg (s.environment = nm)
  omega

/-- addOwnerNSECs keeps the index sorted. -/
theorem addOwnerNSECs_sorted {t : List denialReference} (s : Service)
    (hs : nsecSorted t) : nsecSorted (addOwnerNSECs t s) := by
  simp only [addOwnerNSECs]
  exact addNSEC_sorted _ (addNSEC_sorted _ (addNSEC_sorted _ (addNSEC_sorted _ hs)))

/-- addOwnerNSECs keeps every count positive. -/
theorem addOwnerNSECs_pos {t : List denialReference} (s : Service)
    (hpos : ∀ e ∈ t, 1 ≤ e.reference) :
    ∀ e ∈ addOwnerNSECs t s, 1 ≤ e.reference := by
  simp only [addOwnerNSECs]
  exact addNSEC_pos (addNSEC_pos (addNSEC_pos (addNSEC_pos hpos)))

/-- addOwnerNSECs adds exactly the four owner-name indicators to each
name count. -/
theorem addOwnerNSECs_refOf {t : List denialReference} (s : Service)
    (hs : nsecSorted t) (nm : String) :
    refOf (addOwnerNSECs t s) nm = refOf t nm + ownerRef s nm := by
  have hs1 := addNSEC_sorted (s.region ++ "." ++ s.version ++ "." ++ s.name ++ "." ++ s.environment) hs
  have hs2 := addNSEC_sorted (s.version ++ "." ++ s.name ++ "." ++ s.environment) hs1
  have hs3 := addNSEC_sorted (s.name ++ "." ++ s.environment) hs2
  have e1 := addNSEC_refOf (s.region ++ "." ++ s.version ++ "." ++ s.name ++ "." ++ s.environment) hs nm
  have e2 := addNSEC_refOf (s.version ++ "." ++ s.name ++ "." ++ s.environment) hs1 nm
  have e3 := addNSEC_refOf (s.name ++ "." ++ s.environment) hs2 nm
  have e4 := addNSEC_refOf (s.environment) hs3 nm
  simp only [addOwnerNSECs]
  rw [e4, e3, e2, e1, ownerRef]
  ring

/-- removeOwnerNSECs keeps the index sorted. -/
theorem removeOwnerNSECs_sorted {t : List denialReference} (s : Service)
    (hs : nsecSorted t) : nsecSorted (removeOwnerNSECs t s) := by
  simp only [removeOwnerNSECs]
  exact removeNSEC_sorted _ (removeNSEC_sorted _ (removeNSEC_sorted _ (removeNSEC_sorted _ hs)))

/-- removeOwnerNSECs keeps every count positive. -/
theorem removeOwnerNSECs_pos {t : List denialReference} (s : Service)
    (hpos : ∀ e ∈ t, 1 ≤ e.reference) :
    ∀ e ∈ removeOwnerNSECs t s, 1 ≤ e.reference := by
  simp only [removeOwnerNSECs]
  exact removeNSEC_pos (removeNSEC_pos (removeNSEC_pos (removeNSEC_pos hpos)))

/-- removeOwnerNSECs subtracts exactly the four owner-name indicators of
the removed service when the index holds at least that many references
for each of its owner names. -/
theorem removeOwnerNSECs_refOf {t : List denialReference} (v : Service)
    (hs : nsecSorted t) (hpos : ∀ e ∈ t, 1 ≤ e.reference)
    (havail : ∀ nm, ownerRef v nm ≤ refOf t nm) (nm : String) :
    refOf (removeOwnerNSECs t v) nm = refOf t nm - ownerRef v nm := by
  have hs1 := removeNSEC_sorted (v.region ++ "." ++ v.version ++ "." ++ v.name ++ "." ++ v.environment) hs
  have hs2 := removeNSEC_sorted (v.version ++ "." ++ v.name ++ "." ++ v.environment) hs1
  have hs3 := removeNSEC_sorted (v.name ++ "." ++ v.environment) hs2
  have hp1 : ∀ e ∈ removeNSEC t (v.region ++ "." ++ v.version ++ "." ++ v.name ++ "." ++ v.environment), 1 ≤ e.reference := removeNSEC_pos hpos
  have hp2 : ∀ e ∈ removeNSEC (removeNSEC t (v.region ++ "." ++ v.version ++ "." ++ v.name ++ "." ++ v.environment)) (v.version ++ "." ++ v.name ++ "." ++ v.environment), 1 ≤ e.reference := removeNSEC_pos hp1
  have hp3 : ∀ e ∈ removeNSEC (removeNSEC (removeNSEC t (v.region ++ "." ++ v.version ++ "." ++ v.name ++ "." ++ v.environment)) (v.version ++ "." ++ v.name ++ "." ++ v.environment)) (v.name ++ "." ++ v.environment), 1 ≤ e.reference := removeNSEC_pos hp2
  have hb1 : 1 ≤ refOf t (v.region ++ "." ++ v.version ++ "." ++ v.name ++ "." ++ v.environment) := by
    have ha := havail (v.region ++ "." ++ v.version ++ "." ++ v.name ++ "." ++ v.environment)
    have hid : (if v.region ++ "." ++ v.version ++ "." ++ v.name ++ "." ++ v.environment = v.region ++ "." ++ v.version ++ "." ++ v.name ++ "." ++ v.environment then (1 : Int) else 0) = 1 := if_pos rfl
    have h2 := indicator_nonneg (v.version ++ "." ++ v.name ++ "." ++ v.environment = v.region ++ "." ++ v.version ++ "." ++ v.name ++ "." ++ v.environment)
    have h3 := indicator_nonneg (v.name ++ "." ++ v.environment = v.region ++ "." ++ v.version ++ "." ++ v.name ++ "." ++ v.environment)
    have h4 := indicator_nonneg (v.environment = v.region ++ "." ++ v.version ++ "." ++ v.name ++ "." ++ v.environment)
    rw [ownerRef] at ha
    omega
  have e1 := removeNSEC_refOf (v.region ++ "." ++ v.version ++ "." ++ v.name ++ "." ++ v.environment) hs hb1
  have hb2 : 1 ≤ refOf (removeNSEC t (v.region ++ "." ++ v.version ++ "." ++ v.name ++ "." ++ v.environment)) (v.version ++ "." ++ v.name ++ "." ++ v.environment) := by
    have ha := havail (v.version ++ "." ++ v.name ++ "." ++ v.environment)
    have hid : (if v.version ++ "." ++ v.name ++ "." ++ v.environment = v.version ++ "." ++ v.name ++ "." ++ v.environment then (1 : Int) else 0) = 1 := if_pos rfl
    have h3 := indicator_nonneg (v.name ++ "." ++ v.environment = v.version ++ "." ++ v.name ++ "." ++ v.environment)
    have h4 := indicator_nonneg (v.environment = v.version ++ "." ++ v.name ++ "." ++ v.environment)
    have h1 := indicator_nonneg (v.region ++ "." ++ v.version ++ "." ++ v.name ++ "." ++ v.environment = v.version ++ "." ++ v.name ++ "." ++ v.environment)
    have he := e1 (v.version ++ "." ++ v.name ++ "." ++ v.environment)
    rw [ownerRef] at ha
    omega
  have e2 := removeNSEC_refOf (v.version ++ "." ++ v.name ++ "." ++ v.environment) hs1 hb2
  have hb3 : 1 ≤ refOf (removeNSEC (removeNSEC t (v.region ++ "." ++ v.version ++ "." ++ v.name ++ "." ++ v.environment)) (v.version ++ "." ++ v.name ++ "." ++ v.environment)) (v.name ++ "." ++ v.environment) := by
    have ha := havail (v.name ++ "." ++ v.environment)
    have hid : (if v.name ++ "." ++ v.environment = v.name ++ "." ++ v.environment then (1 : Int) else 0) = 1 := if_pos rfl
    have h4 := indicator_nonneg (v.environment = v.name ++ "." ++ v.environment)
    have h1 := indicator_nonneg (v.region ++ "." ++ v.version ++ "." ++ v.name ++ "." ++ v.environment = v.name ++ "." ++ v.environment)
    have h2 := indicator_nonneg (v.version ++ "." ++ v.name ++ "." ++ v.environment = v.name ++ "." ++ v.environment)
    have he1 := e1 (v.name ++ "." ++ v.environment)
    have he2 := e2 (v.name ++ "." ++ v.environment)
    rw [ownerRef] at ha
    omega
  have e3 := removeNSEC_refOf (v.name ++ "." ++ v.environment) hs2 hb3
  have hb4 : 1 ≤ refOf (removeNSEC (removeNSEC (removeNSEC t (v.region ++ "." ++ v.version ++ "." ++ v.name ++ "." ++ v.environment)) (v.version ++ "." ++ v.name ++ "." ++ v.environment)) (v.name ++ "." ++ v.environment)) (v.environment) := by
    have ha := havail (v.environment)
    have hid : (if v.environment = v.environment then (1 : Int) else 0) = 1 := if_pos rfl
    have h1 := indicator_nonneg (v.region ++ "." ++ v.version ++ "." ++ v.name ++ "." ++ v.environment = v.environment)
    have h2 := indicator_nonneg (v.version ++ "." ++ v.name ++ "." ++ v.environment = v.environment)
    have h3 := indicator_nonneg (v.name ++ "." ++ v.environment = v.environment)
    have he1 := e1 (v.environment)
    have he2 := e2 (v.environment)
    have he3 := e3 (v.environment)
    rw [ownerRef] at ha
    omega
  have e4 := removeNSEC_refOf (v.environment) hs3 hb4
  simp only [removeOwnerNSECs]
  rw [e4 nm, e3 nm, e2 nm, e1 nm, ownerRef]
  ring


/-- Writing an unmapped key appends the new cell. -/
theorem aset_fresh_append {α : Type} (l : List (String × α)) (u : String)
    (s : α) (h : alookup l u = none) : aset l u s = l ++ [(u, s)] := by
  induction l with
  | nil => rfl
  | cons p t ih =>
    obtain ⟨k, v⟩ := p
    by_cases hk : k = u
    · simp [alookup, hk] at h
    · simp only [alookup, if_neg hk] at h
      simp only [aset, if_neg hk, List.cons_append]
      rw [ih h]

theorem ownerCount_cons (k : String) (x : Service) (t : Heap) (nm : String) :
    ownerCount ((k, x) :: t) nm = ownerRef x nm + ownerCount t nm := rfl

theorem ownerCount_append (h1 h2 : Heap) (nm : String) :
    ownerCount (h1 ++ h2) nm = ownerCount h1 nm + ownerCount h2 nm := by
  induction h1 with
  | nil => simp [ownerCount]
  | cons p t ih =>
    obtain ⟨k, x⟩ := p
    simp only [List.cons_append, ownerCount_cons, ih]
    ring

theorem ownerCount_nonneg (h : Heap) (nm : String) : 0 ≤ ownerCount h nm := by
  induction h with
  | nil => simp [ownerCount]
  | cons p t ih =>
    obtain ⟨k, x⟩ := p
    rw [ownerCount_cons]
    have := ownerRef_nonneg x nm
    omega

/-- Deleting a mapped key removes exactly the found cell contribution. -/
theorem ownerCount_adel (h : Heap) (u : String) (v : Service) (nm : String)
    (hl : alookup h u = some v) :
    ownerCount (adel h u) nm = ownerCount h nm - ownerRef v nm := by
  induction h with
  | nil => simp [alookup] at hl
  | cons p t ih =>
    obtain ⟨k, x⟩ := p
    by_cases hk : k = u
    · subst hk
      simp only [alookup, if_pos rfl] at hl
      have hx : x = v := by injection hl
      subst hx
      simp only [adel, if_pos rfl, if_true, ownerCount_cons]
      ring
    · simp only [alookup, if_neg hk] at hl
      simp only [adel, if_neg hk, ownerCount_cons, ih hl]
      ring

/-- Overwriting a mapped key swaps the found cell contribution. -/
theorem ownerCount_aset (h : Heap) (u : String) (v s : Service) (nm : String)
    (hl : alookup h u = some v) :
    ownerCount (aset h u s) nm
      = ownerCount h nm - ownerRef v nm + ownerRef s nm := by
  induction h with
  | nil => simp [alookup] at hl
  | cons p t ih =>
    obtain ⟨k, x⟩ := p
    by_cases hk : k = u
    · subst hk
      simp only [alookup, if_pos rfl] at hl
      have hx : x = v := by injection hl
      subst hx
      simp only [aset, if_pos rfl, if_true, ownerCount_cons]
      ring
    · simp only [alookup, if_neg hk] at hl
      simp only [aset, if_neg hk, ownerCount_cons, ih hl]
      ring

/-- A mapped cell contributes at most the whole count. -/
theorem ownerRef_le_ownerCount (h : Heap) (u : String) (v : Service)
    (nm : String) (hl : alookup h u = some v) :
    ownerRef v nm ≤ ownerCount h nm := by
  induction h with
  | nil => simp [alookup] at hl
  | cons p t ih =>
    obtain ⟨k, x⟩ := p
    rw [ownerCount_cons]
    by_cases hk : k = u
    · subst hk
      simp only [alookup, if_pos rfl] at hl
      have hx : x = v := by injection hl
      subst hx
      have := ownerCount_nonneg t nm
      omega
    · simp only [alookup, if_neg hk] at hl
      have := ih hl
      have hx := ownerRef_nonneg x nm
      omega

theorem ownerRef_updateTTL (s : Service) (now : Int) (nm : String) :
    ownerRef (s.UpdateTTL now) nm = ownerRef s nm := rfl

/-- A tree read never changes any owner-name count. -/
theorem ownerCount_touched {now : Int} {h h2 : Heap}
    (ht : HeapTouched now h h2) (nm : String) :
    ownerCount h2 nm = ownerCount h nm := by
  induction ht with
  | nil => rfl
  | cons hpq hrest ih =>
    rename_i p q t1 t2
    obtain ⟨pk, pv⟩ := p
    obtain ⟨qk, qv⟩ := q
    obtain ⟨hk, hv⟩ := hpq
    have hv2 : qv = pv ∨ qv = pv.UpdateTTL now := hv
    rw [ownerCount_cons, ownerCount_cons, ih]
    rcases hv2 with h | h
    · rw [h]
    · rw [h, ownerRef_updateTTL]

theorem mem_aset {α : Type} (l : List (String × α)) (u : String) (s : α) :
    ∀ p ∈ aset l u s, p = (u, s) ∨ p ∈ l := by
  induction l with
  | nil =>
    intro p hp
    simp only [aset] at hp
    rcases List.mem_singleton.mp hp with h
    exact Or.inl h
  | cons q t ih =>
    obtain ⟨k, v⟩ := q
    intro p hp
    by_cases hk : k = u
    · simp only [aset, if_pos hk] at hp
      rcases List.mem_cons.mp hp with h | h
      · exact Or.inl h
      · exact Or.inr (by simp [h])
    · simp only [aset, if_neg hk] at hp
      rcases List.mem_cons.mp hp with h | h
      · exact Or.inr (by simp [h])
      · rcases ih p h with h2 | h2
        · exact Or.inl h2
        · exact Or.inr (by simp [h2])

theorem mem_adel {α : Type} (l : List (String × α)) (u : String) :
    ∀ p ∈ adel l u, p ∈ l := by
  induction l with
  | nil =>
    intro p hp
    cases hp
  | cons q t ih =>
    obtain ⟨k, v⟩ := q
    intro p hp
    by_cases hk : k = u
    · simp only [adel, if_pos hk] at hp
      exact by simp [hp]
    · simp only [adel, if_neg hk] at hp
      rcases List.mem_cons.mp hp with h | h
      · exact by simp [h]
      · exact by simp [ih p h]


/-- The denial-index invariant of a DNSSEC-enabled registry: the index is
strictly sorted, every count is positive, the id map is keyed by record
uuid, and each name count equals the summed owner-name multiplicity over
the live services. -/
def C6Inv (r : DefaultRegistry) : Prop :=
  r.dnssec = true ∧ nsecSorted r.nsec ∧ (∀ e ∈ r.nsec, 1 ≤ e.reference) ∧
    WellKeyed r.nodes ∧ ∀ nm, refOf r.nsec nm = ownerCount r.nodes nm

/-- removeService, called on a record found in the id map, preserves the
invariant: the four owner names of the deleted record leave the index as
its cell leaves the id map. -/
theorem C6Inv_removeService (r : DefaultRegistry) (u : String) (v : Service)
    (hi : C6Inv r) (hl : alookup r.nodes u = some v) :
    C6Inv (r.removeService v).2 := by
  obtain ⟨hdn, hsort, hpos, hwk, hcnt⟩ := hi
  have huv : v.uuid = u := hwk (u, v) (alookup_mem r.nodes u v hl)
  have hlv : alookup r.nodes v.uuid = some v := by
    rw [huv]
    exact hl
  have havail : ∀ nm, ownerRef v nm ≤ refOf r.nsec nm := by
    intro nm
    rw [hcnt nm]
    exact ownerRef_le_ownerCount r.nodes v.uuid v nm hlv
  rcases hrem : r.tree.remove (splitDot (getRegistryKey v)) with ⟨ok, t2⟩
  have h2 : (r.removeService v).2 =
      { r with
        tree := t2
        nodes := adel r.nodes v.uuid
        nsec := removeOwnerNSECs r.nsec v } := by
    simp [DefaultRegistry.removeService, hrem, hdn]
  rw [h2]
  refine ⟨hdn, ?_, ?_, ?_, ?_⟩
  · exact removeOwnerNSECs_sorted v hsort
  · exact removeOwnerNSECs_pos v hpos
  · intro p hp
    exact hwk p (mem_adel r.nodes v.uuid p hp)
  · intro nm
    show refOf (removeOwnerNSECs r.nsec v) nm
      = ownerCount (adel r.nodes v.uuid) nm
    rw [removeOwnerNSECs_refOf v hsort hpos havail nm,
      ownerCount_adel r.nodes v.uuid v nm hlv, hcnt nm]


/-- Overwriting a mapped cell with a record of the same uuid and the same
owner names preserves the invariant (the reads and the TTL update). -/
theorem C6Inv_aset_same (r : DefaultRegistry) (u : String) (v s2 : Service)
    (hi : C6Inv r) (hl : alookup r.nodes u = some v) (hu : s2.uuid = v.uuid)
    (hre : ∀ nm, ownerRef s2 nm = ownerRef v nm) :
    C6Inv { r with nodes := aset r.nodes u s2 } := by
  obtain ⟨hdn, hsort, hpos, hwk, hcnt⟩ := hi
  have huv : v.uuid = u := hwk (u, v) (alookup_mem r.nodes u v hl)
  refine ⟨hdn, hsort, hpos, ?_, ?_⟩
  · intro p hp
    rcases mem_aset r.nodes u s2 p hp with h | h
    · rw [h]
      show s2.uuid = u
      rw [hu, huv]
    · exact hwk p h
  · intro nm
    show refOf r.nsec nm = ownerCount (aset r.nodes u s2) nm
    rw [ownerCount_aset r.nodes u v s2 nm hl, hre nm, hcnt nm]
    ring

/-- Every registry operation preserves the denial-index invariant. -/
theorem C6Inv_step (r : DefaultRegistry) (op : RegOp) (hi : C6Inv r) :
    C6Inv (r.step op).2 := by
  obtain ⟨hdn, hsort, hpos, hwk, hcnt⟩ := hi
  cases op with
  | add s =>
    show C6Inv (r.Add s).2
    by_cases hl : (alookup r.nodes s.uuid).isSome
    · simp only [DefaultRegistry.Add, if_pos hl]
      exact ⟨hdn, hsort, hpos, hwk, hcnt⟩
    · have hfresh : alookup r.nodes s.uuid = none := by
        cases hx : alookup r.nodes s.uuid with
        | none => rfl
        | some v =>
          rw [hx] at hl
          simp at hl
      rcases hadd : r.tree.add (splitDot (getRegistryKey s)) s with ⟨ok, t2⟩
      cases ok with
      | false =>
        have h2 : (r.Add s).2 = { r with tree := t2 } := by
          simp [DefaultRegistry.Add, hl, hadd]
        rw [h2]
        exact ⟨hdn, hsort, hpos, hwk, hcnt⟩
      | true =>
        have h2 : (r.Add s).2 = { r with
            tree := t2
            nodes := aset r.nodes s.uuid s
            nsec := addOwnerNSECs r.nsec s } := by
          simp [DefaultRegistry.Add, hl, hadd, hdn]
        rw [h2]
        have happ : aset r.nodes s.uuid s = r.nodes ++ [(s.uuid, s)] :=
          aset_fresh_append r.nodes s.uuid s hfresh
        refine ⟨hdn, addOwnerNSECs_sorted s hsort, addOwnerNSECs_pos s hpos,
          ?_, ?_⟩
        · intro p hp
          rw [happ] at hp
          rcases List.mem_append.mp hp with h | h
          · exact hwk p h
          · rcases List.mem_singleton.mp h with h2
            rw [h2]
        · intro nm
          show refOf (addOwnerNSECs r.nsec s) nm
            = ownerCount (aset r.nodes s.uuid s) nm
          have hone : ownerCount [(s.uuid, s)] nm = ownerRef s nm + 0 := rfl
          rw [addOwnerNSECs_refOf s hsort nm, happ, ownerCount_append,
            hcnt nm, hone]
          ring
  | remove s =>
    show C6Inv (r.Remove s).2
    cases hl : alookup r.nodes s.uuid with
    | none =>
      have h2 : (r.Remove s).2 = r := by
        simp [DefaultRegistry.Remove, hl]
      rw [h2]
      exact ⟨hdn, hsort, hpos, hwk, hcnt⟩
    | some v =>
      have h2 : (r.Remove s).2 = (r.removeService v).2 := by
        simp [DefaultRegistry.Remove, hl]
      rw [h2]
      exact C6Inv_removeService r s.uuid v ⟨hdn, hsort, hpos, hwk, hcnt⟩ hl
  | removeUUID u =>
    show C6Inv (r.RemoveUUID u).2
    cases hl : alookup r.nodes u with
    | none =>
      have h2 : (r.RemoveUUID u).2 = r := by
        simp [DefaultRegistry.RemoveUUID, hl]
      rw [h2]
      exact ⟨hdn, hsort, hpos, hwk, hcnt⟩
    | some v =>
      have h2 : (r.RemoveUUID u).2 = (r.removeService v).2 := by
        simp [DefaultRegistry.RemoveUUID, hl]
      rw [h2]
      exact C6Inv_removeService r u v ⟨hdn, hsort, hpos, hwk, hcnt⟩ hl
  | updateTTL u ttl e =>
    show C6Inv (r.UpdateTTL u ttl e).2
    cases hl : alookup r.nodes u with
    | none =>
      have h2 : (r.UpdateTTL u ttl e).2 = r := by
        simp [DefaultRegistry.UpdateTTL, hl]
      rw [h2]
      exact ⟨hdn, hsort, hpos, hwk, hcnt⟩
    | some v =>
      have h2 : (r.UpdateTTL u ttl e).2
          = { r with nodes := aset r.nodes u { v with ttl := ttl, expires := e } } := by
        simp [DefaultRegistry.UpdateTTL, hl]
      rw [h2]
      exact C6Inv_aset_same r u v _ ⟨hdn, hsort, hpos, hwk, hcnt⟩ hl rfl
        (fun nm => rfl)
  | getUUID u now =>
    rcases hg : r.GetUUID u now with ⟨res, r2⟩
    have hstep : (r.step (RegOp.getUUID u now)).2 = r2 := by
      simp only [DefaultRegistry.step, hg]
    rw [hstep]
    cases hl : alookup r.nodes u with
    | none =>
      simp only [DefaultRegistry.GetUUID, hl] at hg
      injection hg with ha hb
      rw [← hb]
      exact ⟨hdn, hsort, hpos, hwk, hcnt⟩
    | some v =>
      simp only [DefaultRegistry.GetUUID, hl] at hg
      by_cases hc : 1 ≤ ({ v with ttl := v.RemainingTTL now } : Service).ttl
      · rw [if_pos hc] at hg
        injection hg with ha hb
        rw [← hb]
        exact C6Inv_aset_same r u v _ ⟨hdn, hsort, hpos, hwk, hcnt⟩ hl rfl
          (fun nm => rfl)
      · rw [if_neg hc] at hg
        injection hg with ha hb
        rw [← hb]
        exact C6Inv_aset_same r u v _ ⟨hdn, hsort, hpos, hwk, hcnt⟩ hl rfl
          (fun nm => rfl)
  | get d now =>
    rcases hg : Node.getW r.tree (getQueryLabels d).reverse r.nodes now
      with ⟨res0, hp2⟩
    have hGet : r.Get d now = (res0, { r with nodes := hp2 }) := by
      simp only [DefaultRegistry.Get, Node.get, hg]
    have hstep : (r.step (RegOp.get d now)).2 = { r with nodes := hp2 } := by
      simp only [DefaultRegistry.step, hGet]
    rw [hstep]
    have hht : HeapTouched now r.nodes hp2 := by
      have h := (getW_spec ((getQueryLabels d).reverse) r.tree r.nodes now).1
      rw [hg] at h
      exact h
    refine ⟨hdn, hsort, hpos, wellKeyed_touched hht hwk, ?_⟩
    intro nm
    show refOf r.nsec nm = ownerCount hp2 nm
    rw [ownerCount_touched hht nm, hcnt nm]


theorem C6Inv_run (ops : List RegOp) :
    ∀ (r : DefaultRegistry), C6Inv r → C6Inv (run r ops) := by
  induction ops with
  | nil =>
    intro r hi
    exact hi
  | cons op ops ih =>
    intro r hi
    show C6Inv (run (r.step op).2 ops)
    exact ih _ (C6Inv_step r op hi)

theorem C6Inv_init : C6Inv (New.DNSSEC true).2 := by
  refine ⟨rfl, List.Pairwise.nil, ?_, ?_, ?_⟩
  · intro e he
    cases he
  · intro p hp
    cases hp
  · intro nm
    rfl

/-- C6: Over every sequence of registry operations on a fresh registry
with DNSSEC enabled, the denial-of-existence index stays strictly sorted
by owner name (hence duplicate-free), every present entry keeps a
reference count of at least 1, each name count equals the total
multiplicity of that name among the four owner names (environment,
name.environment, version.name.environment,
region.version.name.environment) of the live services — merged by
equality with the counts summed — and a name has an entry exactly while
some live service contributes it, so an entry disappears exactly when its
count reaches zero. -/
theorem C6_denial_index_invariant (ops : List RegOp) (nm : String) :
    nsecSorted (run (New.DNSSEC true).2 ops).nsec ∧
    List.Pairwise (fun a b : denialReference => a.name ≠ b.name)
      (run (New.DNSSEC true).2 ops).nsec ∧
    (∀ e ∈ (run (New.DNSSEC true).2 ops).nsec, 1 ≤ e.reference) ∧
    refOf (run (New.DNSSEC true).2 ops).nsec nm
      = ownerCount (run (New.DNSSEC true).2 ops).nodes nm ∧
    ((∃ e ∈ (run (New.DNSSEC true).2 ops).nsec, e.name = nm) ↔
      1 ≤ ownerCount (run (New.DNSSEC true).2 ops).nodes nm) := by
  obtain ⟨hdn, hsort, hpos, hwk, hcnt⟩ :=
    C6Inv_run ops (New.DNSSEC true).2 C6Inv_init
  refine ⟨hsort, hsort.imp (fun h => strLt_ne h), hpos, hcnt nm, ?_⟩
  rw [← hcnt nm]
  exact (refOf_pos_iff hpos).symm

/-- C6 exercised on a concrete run: one Add under DNSSEC. -/
theorem C6_denial_index_invariant_witness :
    nsecSorted (run (New.DNSSEC true).2 [RegOp.add svcA]).nsec ∧
    List.Pairwise (fun a b : denialReference => a.name ≠ b.name)
      (run (New.DNSSEC true).2 [RegOp.add svcA]).nsec ∧
    (∀ e ∈ (run (New.DNSSEC true).2 [RegOp.add svcA]).nsec, 1 ≤ e.reference) ∧
    refOf (run (New.DNSSEC true).2 [RegOp.add svcA]).nsec "prod"
      = ownerCount (run (New.DNSSEC true).2 [RegOp.add svcA]).nodes "prod" ∧
    ((∃ e ∈ (run (New.DNSSEC true).2 [RegOp.add svcA]).nsec, e.name = "prod") ↔
      1 ≤ ownerCount (run (New.DNSSEC true).2 [RegOp.add svcA]).nodes "prod") :=
  C6_denial_index_invariant [RegOp.add svcA] "prod"

end SkyDNS
